import Mathlib

/-!
# Task scheduler: recurrence engine and task lifecycle

A shallow embedding of `usecase/nexdate.go`, `usecase/task.go`,
`repo/sqlite_repo/sqliterepo.go` and `entity/task.go`, together with a model
of the parts of the Go standard library they call (`time.Parse`,
`Time.AddDate`, `Time.After`, `Time.Before`, `Time.Format` for the layout
`20060102`, and `fmt.Sscanf` for the format `%s %d`).

Conventions of the embedding:

* a Go `string` is a Lean `String` (a sequence of Unicode code points, that
  is, valid UTF-8); the library functions below only ever succeed on ASCII
  input, so byte offsets and code point offsets agree wherever it matters;
* a Go `int` is a Lean `Int`; the only place where the 64-bit range is
  visible to the program is `strconv.ParseInt` inside `Sscanf`, which is
  modelled with its range check;
* a `time.Time` is an instant on an unbounded nanosecond time line plus the
  zone offset in force at that instant (Go stores the instant in 64-bit
  fields that cover several hundred thousand million years);
* `time.Now()` is a parameter `now` of every operation that reads the clock;
* a Go `(value, error)` result is an `Except Err value`.
-/

/-! ## Errors -/

/-- The error values the program produces or passes on. -/
inductive Err where
  /-- NextDate: the message `incorrect date: "<date>" `. -/
  | incorrectDate (date : String)
  /-- NextDate: the message `incorrect repeat format: "<repeat>" `. -/
  | incorrectRepeat (rep : String)
  /-- CreateTask and UpdateTask: the message about the missing title. -/
  | missingTitle
  /-- CreateTask: the message `incorrect date format: <date>`. -/
  | incorrectDateFormat (date : String)
  /-- The `*time.ParseError` of `time.Parse`, which UpdateTask returns as is. -/
  | parseError (value : String)
  /-- The value `sql.ErrNoRows` that `Row.Scan` gives when no row matched. -/
  | errNoRows
  /-- The repository's own error of `UpdateTask` for an id without a row. -/
  | rowMissing
  /-- The error that the method `UpdateTask` of `usecase/task.go` puts in the
  place of `sql.ErrNoRows`. -/
  | taskNotFound
  /-- Marks a loop of NextDate that did not stop within its budget of rounds;
  the theorem `usecase.NextDate_terminates` shows that NextDate never returns
  this value. -/
  | loopBudget
  deriving DecidableEq, Repr

deriving instance DecidableEq for Except

/-! ## Package `time` -/

namespace time

/-- Nanoseconds in a second. -/
def nsPerSecond : Int := 1000000000

/-- Nanoseconds in a day of 86400 seconds. -/
def nsPerDay : Int := 86400000000000

/-- A Go `time.Time`: `ns` counts the nanoseconds from 1 January of year 1,
00:00:00 UTC (the zero `Time`) to the instant, and `offset` is the number of
seconds east of UTC of the value's `Location` at that instant (0 for UTC). -/
structure Time where
  ns : Int
  offset : Int
  deriving DecidableEq, Repr

/-- Go `isLeap`. -/
def isLeap (year : Int) : Bool :=
  year % 4 == 0 && (year % 100 != 0 || year % 400 == 0)

/-- Go `daysBefore`: `daysBefore i` is the number of days of a non-leap year
before month `i + 1` starts. -/
def daysBefore (i : Int) : Int :=
  [0, 31, 59, 90, 120, 151, 181, 212, 243, 273, 304, 334, 365].getD i.toNat 0

/-- Go `daysIn`: the number of days of month `m` (1 to 12) in `year`. -/
def daysIn (m : Int) (year : Int) : Int :=
  if m = 2 ∧ isLeap year = true then 29 else daysBefore m - daysBefore (m - 1)

/-- Go `daysSinceEpoch`: the number of days from 1 January of year 1 to
1 January of `year`, counted in cycles of 400, 100, 4 and 1 years. Go shifts
the year by a multiple of 400 to keep the count unsigned; here `/` rounds
down, which gives the same cycles for every year. -/
def daysSinceEpoch (year : Int) : Int :=
  let y := year - 1
  let n := y / 400
  let y := y - 400 * n
  let d := 146097 * n
  let n := y / 100
  let y := y - 100 * n
  let d := d + 36524 * n
  let n := y / 4
  let y := y - 4 * n
  let d := d + 1461 * n
  d + 365 * y

/-- The year part of Go `absDate`: the year that day number `d` (days since
1 January of year 1) falls in, and the day within that year, from 0. -/
def yearOfDay (d : Int) : Int × Int :=
  let n := d / 146097
  let y := 400 * n
  let d := d - 146097 * n
  let n := d / 36524
  let n := n - n / 4
  let y := y + 100 * n
  let d := d - 36524 * n
  let n := d / 1461
  let y := y + 4 * n
  let d := d - 1461 * n
  let n := d / 365
  let n := n - n / 4
  let y := y + n
  let d := d - 365 * n
  (y + 1, d)

/-- The month part of Go `absDate`: month and day of month of day `yday`
(from 0) of a year that is a leap year or not. -/
def monthOfYday (leap : Bool) (yday : Int) : Int × Int :=
  if leap = true ∧ yday = 31 + 29 - 1 then (2, 29)
  else
    let day := if leap = true ∧ yday > 31 + 29 - 1 then yday - 1 else yday
    let month := day / 31
    let upper := daysBefore (month + 1)
    if day ≥ upper then (month + 2, day - upper + 1)
    else (month + 1, day - daysBefore month + 1)

/-- Go `absDate`: year, month and day of month of a day number. -/
def absDate (d : Int) : Int × Int × Int :=
  let (year, yday) := yearOfDay d
  let (month, day) := monthOfYday (isLeap year) yday
  (year, month, day)

/-- The day number that Go `time.Date` computes for a year, a month and a
day: the month is normalised into the year (`norm`), and a day outside the
month runs over into the neighbouring months (30 February is 1 or 2 March). -/
def dateDays (year month day : Int) : Int :=
  let m := month - 1
  let year := year + m / 12
  let m := m % 12
  let d := daysSinceEpoch year + daysBefore m
  let d := if isLeap year = true ∧ m + 1 ≥ 3 then d + 1 else d
  d + (day - 1)

/-- Go `time.Date` for a time of day given as `clock` nanoseconds after
midnight and a zone `offset` seconds east of UTC. -/
def Date (year month day clock offset : Int) : Time :=
  { ns := dateDays year month day * nsPerDay + clock - offset * nsPerSecond, offset := offset }

/-- The wall clock reading of `t` in its own zone, in nanoseconds. -/
def Time.abs (t : Time) : Int := t.ns + t.offset * nsPerSecond

/-- Go `Time.Date`: year, month and day of `t` in its own zone. -/
def Time.Date (t : Time) : Int × Int × Int := absDate (t.abs / nsPerDay)

/-- Go `Time.After`. -/
def Time.After (t u : Time) : Bool := decide (u.ns < t.ns)

/-- Go `Time.Before`. -/
def Time.Before (t u : Time) : Bool := decide (t.ns < u.ns)

/-- Go `Time.AddDate`: the date of `t` with the three amounts added to its
fields, at the same time of day, normalised by `Date`. -/
def Time.AddDate (t : Time) (years months days : Int) : Time :=
  let (year, month, day) := t.Date
  time.Date (year + years) (month + months) (day + days) (t.abs % nsPerDay) t.offset

/-- The decimal digit `u` (0 to 9) as a character, Go `byte(48 + u)`. -/
def digitChar (u : Nat) : Char := Char.ofNat (48 + u)

/-- The loop of Go `appendInt` that assembles the decimal digits of `u` from
the right; the first argument bounds the number of digits. -/
def decimalAux : Nat → Nat → List Char → List Char
  | 0, _, acc => acc
  | fuel + 1, u, acc =>
    if u < 10 then digitChar u :: acc
    else decimalAux fuel (u / 10) (digitChar (u % 10) :: acc)

/-- The decimal digits of `u`, most significant first, without padding. -/
def decimal (u : Nat) : List Char := decimalAux (u + 1) u []

/-- Go `appendInt`: a minus sign for a negative `x`, then the decimal digits
of its magnitude padded with zeros on the left to `width` digits. -/
def appendInt (x : Int) (width : Nat) : List Char :=
  let digits := decimal x.natAbs
  let padded := List.replicate (width - digits.length) (Char.ofNat 48) ++ digits
  if x < 0 then Char.ofNat 45 :: padded else padded

/-- Go `Time.Format` with the layout `20060102`: the year in at least four
digits, the month in two and the day in two. -/
def Time.Format (t : Time) : String :=
  let (year, month, day) := t.Date
  String.mk (appendInt year 4 ++ appendInt month 2 ++ appendInt day 2)

/-- The value of a decimal digit character. -/
def digitVal (c : Char) : Nat := c.toNat - 48

/-- The value of a run of decimal digits (Go `leadingInt` on digits). -/
def digitsValue (cs : List Char) : Nat :=
  cs.foldl (fun acc c => 10 * acc + digitVal c) 0

/-- Go `getnum` with `fixed = true`: exactly two leading digits. -/
def getnum2 (value : List Char) : Option (Int × List Char) :=
  match value with
  | a :: b :: rest =>
    if a.isDigit ∧ b.isDigit then some ((digitVal a * 10 + digitVal b : Nat), rest) else none
  | _ => none

/-- Go `time.Parse` with the layout `20060102`: four digits of year, two of
month (1 to 12), two of day, no text after them, and a day that exists in
that month of that year. The result is midnight UTC of that date. -/
def Parse (value : String) : Except Err Time :=
  let bad : Except Err Time := .error (.parseError value)
  match value.data with
  | y1 :: y2 :: y3 :: y4 :: rest =>
    if y1.isDigit ∧ y2.isDigit ∧ y3.isDigit ∧ y4.isDigit then
      let year : Int := (digitsValue [y1, y2, y3, y4] : Nat)
      match getnum2 rest with
      | none => bad
      | some (month, rest) =>
        if month ≤ 0 ∨ 12 < month then bad
        else
          match getnum2 rest with
          | none => bad
          | some (day, rest) =>
            if rest ≠ [] then bad
            else if day < 1 ∨ day > daysIn month year then bad
            else .ok (Date year month day 0 0)
    else bad
  | _ => bad

end time

/-! ## Package `fmt`: `Sscanf` with the format `%s %d` -/

namespace fmt

/-- Go `fmt.isSpace`: the Unicode white space table of the scanner. -/
def isSpace (r : Char) : Bool :=
  let x := r.toNat
  (0x0009 ≤ x && x ≤ 0x000d) || x == 0x0020 || x == 0x0085 || x == 0x00a0 ||
  x == 0x1680 || (0x2000 ≤ x && x ≤ 0x200a) || x == 0x2028 || x == 0x2029 ||
  x == 0x202f || x == 0x205f || x == 0x3000

/-- Go `ss.SkipSpace` as `Sscanf` runs it (a newline is not a space):
the input after the leading spaces, or `none` for the panic
`unexpected newline`. -/
def SkipSpace : List Char → Option (List Char)
  | [] => some []
  | r :: rest =>
    if r = Char.ofNat 13 ∧ rest.head? = some (Char.ofNat 10) then SkipSpace rest
    else if r = Char.ofNat 10 then none
    else if isSpace r then SkipSpace rest
    else some (r :: rest)

/-- The verb `%s`: `doScanf` skips spaces, then `convertString` skips spaces,
requires input to be left, and `token` skips spaces and reads up to the next
space. The result is the word and the input after it. -/
def scanWord (input : List Char) : Option (List Char × List Char) :=
  match SkipSpace input with
  | none => none
  | some s =>
    match SkipSpace s with
    | none => none
    | some s =>
      if s = [] then none
      else
        match SkipSpace s with
        | none => none
        | some s => some (s.span (fun r => !isSpace r))

/-- Go `ss.advance` on the single space of the format: the input must be at
its end or continue with a space that is not a newline; all spaces up to the
next newline are consumed. -/
def advanceSpace : List Char → Option (List Char)
  | [] => some []
  | c :: rest =>
    if !isSpace c then none
    else if c = Char.ofNat 10 then none
    else some (rest.dropWhile (fun r => isSpace r && r != Char.ofNat 10))

/-- Go `strconv.ParseInt(tok, 10, 64)` on an optional sign and a run of
digits: `none` when the value does not fit 64 bits. -/
def ParseInt (negative : Bool) (digits : List Char) : Option Int :=
  let u := time.digitsValue digits
  if negative then (if u ≤ 2 ^ 63 then some (-(u : Int)) else none)
  else (if u < 2 ^ 63 then some (u : Int) else none)

/-- The verb `%d`: `doScanf` and `scanInt` skip spaces, input must be left,
an optional sign is accepted, at least one digit must follow, and the digits
are converted by `ParseInt`. -/
def scanInt (input : List Char) : Option Int :=
  match SkipSpace input with
  | none => none
  | some s =>
    match SkipSpace s with
    | none => none
    | some s =>
      if s = [] then none
      else
        let signed : Bool × List Char :=
          match s with
          | c :: r => if c = Char.ofNat 43 then (false, r)
                      else if c = Char.ofNat 45 then (true, r) else (false, s)
          | [] => (false, s)
        match signed.2 with
        | [] => none
        | c :: _ =>
          if c.isDigit then ParseInt signed.1 (signed.2.takeWhile Char.isDigit) else none

/-- The call `fmt.Sscanf(str, "%s %d", &datePart, &n)` with both variables
zero before the call, its error result dropped: the values of `datePart` and
`n` after the call. A failure stops the scan and leaves the remaining
variables as they were. -/
def Sscanf (str : String) : String × Int :=
  match scanWord str.data with
  | none => ("", 0)
  | some (word, rest) =>
    match advanceSpace rest with
    | none => (String.mk word, 0)
    | some rest =>
      match scanInt rest with
      | none => (String.mk word, 0)
      | some v => (String.mk word, v)

end fmt

/-! ## Package `entity` -/

namespace entity

/-- The struct `Task` of `entity/task.go`. -/
structure Task where
  ID : Int
  Date : String
  Title : String
  Comment : String
  Repeat : String
  deriving DecidableEq, Repr

end entity

/-! ## Package `sqliterepo` -/

namespace sqliterepo

open entity

/-- The table `scheduler` behind `SqliteRepo`: its rows in insertion order
and `seq`, the largest id the `AUTOINCREMENT` key has handed out so far.
Failures of the database itself are not modelled: every statement runs. -/
structure SqliteRepo where
  rows : List Task
  seq : Int
  deriving DecidableEq, Repr

/-- The table as `New` creates it. -/
def SqliteRepo.empty : SqliteRepo := { rows := [], seq := 0 }

/-- The method `CreateTask`: `INSERT` of date, title, comment and repeat under
the next key (the `ID` field of the argument is not used); returns
`LastInsertId`. -/
def SqliteRepo.CreateTask (repo : SqliteRepo) (task : Task) : Except Err Int × SqliteRepo :=
  let taskId := repo.seq + 1
  (.ok taskId, { rows := repo.rows ++ [{ task with ID := taskId }], seq := taskId })

/-- The method `RemoveTask`: `DELETE ... WHERE id = ?`; deleting no row is not
an error. -/
def SqliteRepo.RemoveTask (repo : SqliteRepo) (id : Int) : Except Err Unit × SqliteRepo :=
  (.ok (), { repo with rows := repo.rows.filter (fun r => r.ID ≠ id) })

/-- The method `GetTask`: `SELECT ... WHERE id = ?` and `Scan`, which gives
`sql.ErrNoRows` when there is no such row. -/
def SqliteRepo.GetTask (repo : SqliteRepo) (id : Int) : Except Err Task :=
  match repo.rows.find? (fun r => r.ID = id) with
  | some task => .ok task
  | none => .error .errNoRows

/-- What the statement `UPDATE ... SET date, title, comment, repeat WHERE id = ?`
makes of one row. -/
def updateRow (task r : Task) : Task :=
  if r.ID = task.ID then
    { r with Date := task.Date, Title := task.Title, Comment := task.Comment,
             Repeat := task.Repeat }
  else r

/-- The method `UpdateTask`: the existence check, then the `UPDATE`. -/
def SqliteRepo.UpdateTask (repo : SqliteRepo) (task : Task) : Except Err Unit × SqliteRepo :=
  let «exists» := repo.rows.any (fun r => r.ID = task.ID)
  if !«exists» then (.error .rowMissing, repo)
  else (.ok (), { repo with rows := repo.rows.map (updateRow task) })

end sqliterepo

/-! ## Package `usecase` -/

namespace usecase

open entity sqliterepo time

/-- The loop `for { newDate = dataTime.AddDate(...); if ... { break };
dataTime = newDate }` of NextDate, which the function has once for the day
rule and once for the year rule. The first argument bounds the number of
rounds; `none` means that the bound was reached before the `break`. -/
def advance (now : Time) (years months days : Int) : Nat → Time → Option Time
  | 0, _ => none
  | budget + 1, dataTime =>
    let newDate := dataTime.AddDate years months days
    if newDate.After now || newDate.Format == dataTime.Format then some newDate
    else advance now years months days budget newDate

/-- A number of rounds that the loops of NextDate never exceed: one round for
every whole day between the start date and `now`, and two more. -/
def loopBudget (now dataTime : Time) : Nat :=
  ((now.ns - dataTime.ns) / nsPerDay).toNat + 2

/-- The function `NextDate` of `usecase/nexdate.go`. -/
def NextDate (now : Time) (date : String) (rep : String) : Except Err String :=
  if rep = "" then .ok ""
  else
    match time.Parse date with
    | .error _ => .error (.incorrectDate date)
    | .ok dataTime =>
      let scanned := fmt.Sscanf rep
      let datePart := scanned.1
      let n := scanned.2
      if datePart = "d" then
        if n > 0 ∧ n ≤ 400 then
          match advance now 0 0 n (loopBudget now dataTime) dataTime with
          | some newDate => .ok newDate.Format
          | none => .error .loopBudget
        else .error (.incorrectRepeat rep)
      else if datePart = "y" then
        match advance now 1 0 0 (loopBudget now dataTime) dataTime with
        | some newDate => .ok newDate.Format
        | none => .error .loopBudget
      else .error (.incorrectRepeat rep)

/-- The struct `Usecase`: the handle of the repository. -/
structure Usecase where
  db : SqliteRepo
  deriving DecidableEq, Repr

/-- The date handling of `CreateTask` between the two checks at its start
and the insert: the task as it is handed to the repository. -/
def normalizeDate (now : Time) (task : Task) : Except Err Task :=
  if task.Date = "" then .ok { task with Date := now.Format }
  else
    match time.Parse task.Date with
    | .error _ => .error (.incorrectDateFormat task.Date)
    | .ok parsedDate =>
      if parsedDate.Before now && parsedDate.Format != now.Format then
        if task.Repeat = "" then .ok { task with Date := now.Format }
        else
          match NextDate now task.Date task.Repeat with
          | .error err => .error err
          | .ok nextDate => .ok { task with Date := nextDate }
      else .ok task

/-- The method `CreateTask` of `usecase/task.go`, with the reading of
`time.Now()` as the argument `now`. -/
def Usecase.CreateTask (u : Usecase) (now : Time) (task : Task) : Except Err Int × Usecase :=
  if task.Title = "" then (.error .missingTitle, u)
  else
    match NextDate now now.Format task.Repeat with
    | .error err => (.error err, u)
    | .ok _ =>
      match normalizeDate now task with
      | .error err => (.error err, u)
      | .ok task =>
        let r := u.db.CreateTask task
        (r.1, { db := r.2 })

/-- The method `GetTask` of `usecase/task.go`. -/
def Usecase.GetTask (u : Usecase) (id : Int) : Except Err Task :=
  u.db.GetTask id

/-- The method `UpdateTask` of `usecase/task.go`. The repository's error is
not `sql.ErrNoRows`, so it is returned as it is. -/
def Usecase.UpdateTask (u : Usecase) (now : Time) (task : Task) : Except Err Unit × Usecase :=
  if task.Title = "" then (.error .missingTitle, u)
  else
    match NextDate now now.Format task.Repeat with
    | .error err => (.error err, u)
    | .ok _ =>
      match time.Parse task.Date with
      | .error err => (.error err, u)
      | .ok _ =>
        let r := u.db.UpdateTask task
        match r.1 with
        | .error err => (if err = .errNoRows then .error .taskNotFound else .error err, { db := r.2 })
        | .ok _ => (.ok (), { db := r.2 })

/-- The method `MarkTaskDone` of `usecase/task.go`. -/
def Usecase.MarkTaskDone (u : Usecase) (now : Time) (id : Int) : Except Err Unit × Usecase :=
  match u.GetTask id with
  | .error err => (.error err, u)
  | .ok task =>
    if task.Repeat = "" then
      let r := u.db.RemoveTask id
      match r.1 with
      | .error err => (.error err, { db := r.2 })
      | .ok _ => (.ok (), { db := r.2 })
    else
      match NextDate now task.Date task.Repeat with
      | .error err => (.error err, u)
      | .ok nextDate =>
        let r := u.db.UpdateTask { task with Date := nextDate }
        match r.1 with
        | .error err => (.error err, { db := r.2 })
        | .ok _ => (.ok (), { db := r.2 })

/-- The method `DeleteTask` of `usecase/task.go`. -/
def Usecase.DeleteTask (u : Usecase) (id : Int) : Except Err Unit × Usecase :=
  let r := u.db.RemoveTask id
  (r.1, { db := r.2 })

end usecase

/-! ## Notions used by the statements -/

namespace time

/-- A year, a month from 1 to 12 and a day that exists in that month. -/
def validDate (y m dd : Int) : Prop :=
  1 ≤ m ∧ m ≤ 12 ∧ 1 ≤ dd ∧ dd ≤ daysIn m y

/-- Midnight UTC at the start of day number `d`. -/
def utcMidnight (d : Int) : Time := { ns := d * nsPerDay, offset := 0 }

/-- The text that `Format` writes for a year, a month and a day. -/
def formatDate (date : Int × Int × Int) : String :=
  String.mk (appendInt date.1 4 ++ appendInt date.2.1 2 ++ appendInt date.2.2 2)

/-- Reads back what `appendInt` wrote: a sign and a run of digits. -/
def readInt (cs : List Char) : Int :=
  match cs with
  | [] => 0
  | c :: r => if c = Char.ofNat 45 then -(digitsValue r : Int) else (digitsValue (c :: r) : Int)

end time

namespace usecase

open time

/-- The step of the year rule on day numbers: the same month and day one
year later, normalised by `Date`. -/
def yearStep (d : Int) : Int := dateDays ((absDate d).1 + 1) (absDate d).2.1 (absDate d).2.2

/-- The rule text `d <n>` with `n` in decimal digits. -/
def dailyRule (n : Nat) : String := "d " ++ String.mk (decimal n)

/-- What NextDate makes of a rule text: the word that `Sscanf` reads is `y`,
or it is `d` and the number read after it lies between 1 and 400. -/
def ruleAccepted (rep : String) : Prop :=
  (fmt.Sscanf rep).1 = "y" ∨
    ((fmt.Sscanf rep).1 = "d" ∧ 0 < (fmt.Sscanf rep).2 ∧ (fmt.Sscanf rep).2 ≤ 400)

instance (rep : String) : Decidable (ruleAccepted rep) := by
  unfold ruleAccepted
  infer_instance

/-- The end of CreateTask: the insert of a checked task into the repository. -/
def Usecase.store (u : Usecase) (task : entity.Task) : Except Err Int × Usecase :=
  ((u.db.CreateTask task).1, { db := (u.db.CreateTask task).2 })

/-- One call of the task lifecycle, with the reading of the clock that the
call makes. -/
inductive Op where
  | create (now : Time) (task : entity.Task)
  | update (now : Time) (task : entity.Task)
  | done (now : Time) (id : Int)
  | delete (id : Int)

/-- The store after one call; the result of the call is dropped. -/
def Usecase.step (u : Usecase) : Op → Usecase
  | .create now task => (u.CreateTask now task).2
  | .update now task => (u.UpdateTask now task).2
  | .done now id => (u.MarkTaskDone now id).2
  | .delete id => (u.DeleteTask id).2

/-- The store after a sequence of calls. -/
def Usecase.run (u : Usecase) (ops : List Op) : Usecase := ops.foldl Usecase.step u

/-- A task as the data model wants it at rest: a title that is not empty, a
date that parses as YYYYMMDD, and a rule that is empty or accepted. -/
def taskWellFormed (t : entity.Task) : Prop :=
  t.Title ≠ "" ∧ (∃ d, time.Parse t.Date = .ok d) ∧ (t.Repeat = "" ∨ ruleAccepted t.Repeat)

/-- Every task of the store is well formed. -/
def storeInvariant (u : Usecase) : Prop := ∀ t ∈ u.db.rows, taskWellFormed t

end usecase

/-! ## The calendar -/

namespace time

/-- The count of days in closed form. -/
theorem daysSinceEpoch_eq (y : Int) :
    daysSinceEpoch y = 365 * (y - 1) + (y - 1) / 4 - (y - 1) / 100 + (y - 1) / 400 := by
  simp only [daysSinceEpoch]
  omega

theorem isLeap_iff (y : Int) :
    isLeap y = true ↔ y % 4 = 0 ∧ (y % 100 ≠ 0 ∨ y % 400 = 0) := by
  simp [isLeap]

/-- A year has 366 days when it is a leap year and 365 otherwise. -/
theorem daysSinceEpoch_succ (y : Int) :
    daysSinceEpoch (y + 1) = daysSinceEpoch y + (if isLeap y = true then 366 else 365) := by
  simp only [daysSinceEpoch_eq, isLeap_iff]
  split <;> omega

theorem daysSinceEpoch_add_le (y : Int) (k : Nat) :
    daysSinceEpoch y + 365 * k ≤ daysSinceEpoch (y + k) := by
  induction k with
  | zero => simp
  | succ k ih =>
    have h := daysSinceEpoch_succ (y + k)
    push_cast
    rw [← add_assoc, h]
    split <;> omega

theorem daysSinceEpoch_mono {y z : Int} (h : y ≤ z) : daysSinceEpoch y ≤ daysSinceEpoch z := by
  have h1 := daysSinceEpoch_add_le y (z - y).toNat
  have e : y + ((z - y).toNat : Int) = z := by omega
  rw [e] at h1
  omega

/-- A day number lies in one year only. -/
theorem year_unique {y z d : Int} (h1 : daysSinceEpoch y ≤ d) (h2 : d < daysSinceEpoch (y + 1))
    (h3 : daysSinceEpoch z ≤ d) (h4 : d < daysSinceEpoch (z + 1)) : y = z := by
  rcases lt_trichotomy y z with h | h | h
  · have := daysSinceEpoch_mono (show y + 1 ≤ z by omega); omega
  · exact h
  · have := daysSinceEpoch_mono (show z + 1 ≤ y by omega); omega

/-- The year part of `absDate` finds the year of a day number and the day
within that year. -/
theorem yearOfDay_spec (d : Int) :
    daysSinceEpoch (yearOfDay d).1 + (yearOfDay d).2 = d ∧ 0 ≤ (yearOfDay d).2 ∧
    (yearOfDay d).2 < (if isLeap (yearOfDay d).1 = true then 366 else 365) := by
  simp only [daysSinceEpoch_eq, yearOfDay, isLeap_iff]
  generalize ha : d / 146097 = a
  generalize hr1 : d - 146097 * a = r1
  generalize hb' : r1 / 36524 = b'
  generalize hb : b' - b' / 4 = b
  generalize hr2 : r1 - 36524 * b = r2
  generalize hc : r2 / 1461 = c
  generalize hr3 : r2 - 1461 * c = r3
  generalize he' : r3 / 365 = e'
  generalize he : e' - e' / 4 = e
  have b1 : 0 ≤ r1 ∧ r1 < 146097 := by omega
  have hb4 : 0 ≤ b' ∧ b' ≤ 3 ∨ (b' = 4 ∧ r1 = 146096) := by omega
  have b3 : 0 ≤ r2 ∧ r2 ≤ 36524 ∧ 0 ≤ b ∧ b ≤ 3 ∧ (b = 3 ∨ r2 < 36524) := by omega
  clear hb hb' hb4 ha
  have b4 : 0 ≤ c ∧ c ≤ 24 := by omega
  have b5 : 0 ≤ r3 ∧ r3 ≤ 1460 ∧ (c = 24 → b ≠ 3 → r3 < 1460) := by omega
  have he4 : 0 ≤ e' ∧ e' ≤ 3 ∧ e = e' ∨ (e' = 4 ∧ r3 = 1460 ∧ e = 3) := by omega
  clear hc
  have q1 : (400 * a + 100 * b + 4 * c + e + 1) % 4 = (e + 1) % 4 := by omega
  have q2 : (400 * a + 100 * b + 4 * c + e + 1) % 100 = (4 * c + e + 1) % 100 := by omega
  have q3 : (400 * a + 100 * b + 4 * c + e + 1) % 400 = (100 * b + 4 * c + e + 1) % 400 := by
    omega
  have q4 : (400 * a + 100 * b + 4 * c + e + 1 - 1) / 400 = a := by omega
  have q5 : (400 * a + 100 * b + 4 * c + e + 1 - 1) / 100 = 4 * a + b := by omega
  have q6 : (400 * a + 100 * b + 4 * c + e + 1 - 1) / 4 = 100 * a + 25 * b + c := by omega
  rw [q1, q2, q3, q4, q5, q6]
  clear q1 q2 q3 q4 q5 q6
  refine ⟨by omega, by omega, ?_⟩
  clear he
  split <;> omega

/-- The entries of the month table. -/
theorem daysBefore_values :
    daysBefore 0 = 0 ∧ daysBefore 1 = 31 ∧ daysBefore 2 = 59 ∧ daysBefore 3 = 90 ∧
    daysBefore 4 = 120 ∧ daysBefore 5 = 151 ∧ daysBefore 6 = 181 ∧ daysBefore 7 = 212 ∧
    daysBefore 8 = 243 ∧ daysBefore 9 = 273 ∧ daysBefore 10 = 304 ∧ daysBefore 11 = 334 ∧
    daysBefore 12 = 365 := by
  decide

/-- The month split on a day counted without the leap day. -/
theorem month_split (day : Int) (h0 : 0 ≤ day) (h1 : day < 365) :
    ∃ m dom : Int, (if day ≥ daysBefore (day / 31 + 1)
        then (day / 31 + 2, day - daysBefore (day / 31 + 1) + 1)
        else (day / 31 + 1, day - daysBefore (day / 31) + 1)) = (m, dom) ∧
      1 ≤ m ∧ m ≤ 12 ∧ 1 ≤ dom ∧ dom ≤ daysBefore m - daysBefore (m - 1) ∧
      daysBefore (m - 1) + (dom - 1) = day := by
  obtain ⟨v0, v1, v2, v3, v4, v5, v6, v7, v8, v9, v10, v11, v12⟩ := daysBefore_values
  have key : ∀ k : Int, 0 ≤ k → k ≤ 11 → day / 31 = k →
      ∃ m dom : Int, (if day ≥ daysBefore (k + 1)
        then (k + 2, day - daysBefore (k + 1) + 1)
        else (k + 1, day - daysBefore k + 1)) = (m, dom) ∧
      1 ≤ m ∧ m ≤ 12 ∧ 1 ≤ dom ∧ dom ≤ daysBefore m - daysBefore (m - 1) ∧
      daysBefore (m - 1) + (dom - 1) = day := by
    intro k hk0 hk11 hk
    interval_cases k <;> norm_num [v0, v1, v2, v3, v4, v5, v6, v7, v8, v9, v10, v11, v12] <;>
      split <;> refine ⟨_, _, rfl, ?_⟩ <;>
      norm_num [v0, v1, v2, v3, v4, v5, v6, v7, v8, v9, v10, v11, v12] <;> omega
  exact key (day / 31) (by omega) (by omega) rfl

/-- The month part of `absDate` finds a month and a day of that month that
add up to the day of the year. -/
theorem monthOfYday_spec (leap : Bool) (yd : Int) (h0 : 0 ≤ yd)
    (h1 : yd < (if leap = true then 366 else 365)) :
    ∃ m dom : Int, monthOfYday leap yd = (m, dom) ∧ 1 ≤ m ∧ m ≤ 12 ∧ 1 ≤ dom ∧
      dom ≤ (if m = 2 ∧ leap = true then 29 else daysBefore m - daysBefore (m - 1)) ∧
      daysBefore (m - 1) + (if leap = true ∧ m ≥ 3 then 1 else 0) + (dom - 1) = yd := by
  obtain ⟨v0, v1, v2, v3, v4, v5, v6, v7, v8, v9, v10, v11, v12⟩ := daysBefore_values
  unfold monthOfYday
  cases leap
  · simp only [Bool.false_eq_true, false_and, if_false, and_false] at h1 ⊢
    obtain ⟨m, dom, e, hm⟩ := month_split yd h0 h1
    exact ⟨m, dom, e, by simpa using hm⟩
  · simp only [true_and, if_true, and_true] at h1 ⊢
    by_cases h59 : yd = 31 + 29 - 1
    · rw [if_pos h59]
      exact ⟨2, 29, rfl, by norm_num [v1]; omega⟩
    · rw [if_neg h59]
      by_cases hgt : yd > 31 + 29 - 1
      · rw [if_pos hgt]
        obtain ⟨m, dom, e, hm1, hm12, hd1, hd2, hs⟩ := month_split (yd - 1) (by omega) (by omega)
        refine ⟨m, dom, e, hm1, hm12, hd1, ?_, ?_⟩
        · have : m ≠ 2 := by
            rintro rfl
            norm_num [v1] at hs
            norm_num [v1, v2] at hd2
            omega
          rw [if_neg this]; exact hd2
        · have : m ≥ 3 := by
            by_contra hlt
            have : m = 1 ∨ m = 2 := by omega
            rcases this with rfl | rfl
            · norm_num [v0, v1] at hs hd2; omega
            · norm_num [v1, v2] at hs hd2; omega
          rw [if_pos this]; omega
      · rw [if_neg hgt]
        obtain ⟨m, dom, e, hm1, hm12, hd1, hd2, hs⟩ := month_split yd (by omega) (by omega)
        have hm : m = 1 ∨ m = 2 := by
          by_contra hne
          have h3 : 3 ≤ m := by omega
          have hmono : 59 ≤ daysBefore (m - 1) := by
            interval_cases m <;> norm_num [v2, v3, v4, v5, v6, v7, v8, v9, v10, v11]
          omega
        refine ⟨m, dom, e, hm1, hm12, hd1, ?_, ?_⟩
        · rcases hm with rfl | rfl
          · norm_num; exact hd2
          · norm_num [v1, v2] at hd2 ⊢; omega
        · rcases hm with rfl | rfl
          · norm_num [v0] at hs ⊢; omega
          · norm_num [v1] at hs ⊢; omega


/-- The month table read as one case per month. -/
theorem daysBefore_cases (m : Int) (h1 : 1 ≤ m) (h12 : m ≤ 12) :
    (m = 1 ∧ daysBefore (m - 1) = 0 ∧ daysBefore m = 31) ∨
    (m = 2 ∧ daysBefore (m - 1) = 31 ∧ daysBefore m = 59) ∨
    (m = 3 ∧ daysBefore (m - 1) = 59 ∧ daysBefore m = 90) ∨
    (m = 4 ∧ daysBefore (m - 1) = 90 ∧ daysBefore m = 120) ∨
    (m = 5 ∧ daysBefore (m - 1) = 120 ∧ daysBefore m = 151) ∨
    (m = 6 ∧ daysBefore (m - 1) = 151 ∧ daysBefore m = 181) ∨
    (m = 7 ∧ daysBefore (m - 1) = 181 ∧ daysBefore m = 212) ∨
    (m = 8 ∧ daysBefore (m - 1) = 212 ∧ daysBefore m = 243) ∨
    (m = 9 ∧ daysBefore (m - 1) = 243 ∧ daysBefore m = 273) ∨
    (m = 10 ∧ daysBefore (m - 1) = 273 ∧ daysBefore m = 304) ∨
    (m = 11 ∧ daysBefore (m - 1) = 304 ∧ daysBefore m = 334) ∨
    (m = 12 ∧ daysBefore (m - 1) = 334 ∧ daysBefore m = 365) := by
  interval_cases m <;> decide

theorem dateDays_of_month {y m dd : Int} (h1 : 1 ≤ m) (h12 : m ≤ 12) :
    dateDays y m dd =
      daysSinceEpoch y + daysBefore (m - 1) + (if isLeap y = true ∧ m ≥ 3 then 1 else 0) +
        (dd - 1) := by
  have e1 : (m - 1) / 12 = 0 := by omega
  have e2 : (m - 1) % 12 = m - 1 := by omega
  simp only [dateDays, e1, e2, add_zero]
  have e3 : (m - 1 + 1 ≥ 3) ↔ m ≥ 3 := by omega
  simp only [e3]
  split <;> omega

/-- `absDate` gives a valid date, and `Date` maps it back to the day number. -/
theorem absDate_spec (d : Int) :
    ∃ y m dd : Int, absDate d = (y, m, dd) ∧ validDate y m dd ∧ dateDays y m dd = d := by
  obtain ⟨hy1, hy2, hy3⟩ := yearOfDay_spec d
  obtain ⟨m, dom, e, hm1, hm12, hd1, hd2, hs⟩ :=
    monthOfYday_spec (isLeap (yearOfDay d).1) (yearOfDay d).2 hy2 hy3
  refine ⟨(yearOfDay d).1, m, dom, ?_, ⟨hm1, hm12, hd1, ?_⟩, ?_⟩
  · simp only [absDate, e]
  · simpa only [daysIn] using hd2
  · rw [dateDays_of_month hm1 hm12]
    omega

theorem dateDays_absDate (d : Int) :
    dateDays (absDate d).1 (absDate d).2.1 (absDate d).2.2 = d := by
  obtain ⟨y, m, dd, e, _, h⟩ := absDate_spec d
  rw [e]; exact h

/-- A valid date lies inside its year. -/
theorem validDate_yday {y m dd : Int} (h : validDate y m dd) :
    0 ≤ daysBefore (m - 1) + (if isLeap y = true ∧ m ≥ 3 then 1 else 0) + (dd - 1) ∧
    daysBefore (m - 1) + (if isLeap y = true ∧ m ≥ 3 then 1 else 0) + (dd - 1) <
      (if isLeap y = true then 366 else 365) := by
  obtain ⟨h1, h12, hd1, hd2⟩ := h
  have hc := daysBefore_cases m h1 h12
  unfold daysIn at hd2
  cases hl : isLeap y <;> simp only [hl, Bool.false_eq_true, false_and, and_false, if_false,
    true_and, and_true, if_true] at hd2 ⊢
  · omega
  · split at hd2 <;> split <;> omega

/-- Different valid dates have different day numbers. -/
theorem dateDays_inj {y m dd z k ee : Int} (h : validDate y m dd) (h2 : validDate z k ee)
    (e : dateDays y m dd = dateDays z k ee) : y = z ∧ m = k ∧ dd = ee := by
  have b1 := validDate_yday h
  have b2 := validDate_yday h2
  rw [dateDays_of_month h.1 h.2.1, dateDays_of_month h2.1 h2.2.1] at e
  have s1 := daysSinceEpoch_succ y
  have s2 := daysSinceEpoch_succ z
  have hyz : y = z := by
    apply year_unique (d := dateDays y m dd) <;> rw [dateDays_of_month h.1 h.2.1] <;> omega
  subst hyz
  obtain ⟨h1, h12, hd1, hd2⟩ := h
  obtain ⟨k1, k12, he1, he2⟩ := h2
  have hc := daysBefore_cases m h1 h12
  have hc2 := daysBefore_cases k k1 k12
  unfold daysIn at hd2 he2
  clear s1 s2 b1 b2
  refine ⟨rfl, ?_⟩
  cases hl : isLeap y <;> simp only [hl, Bool.false_eq_true, false_and, and_false, if_false,
    true_and, and_true, if_true] at hd2 he2 e
  · omega
  · split at hd2 <;> split at he2 <;> split at e <;> split at e <;> omega

/-- `absDate` maps the day number of a valid date back to the date. -/
theorem absDate_dateDays {y m dd : Int} (h : validDate y m dd) :
    absDate (dateDays y m dd) = (y, m, dd) := by
  obtain ⟨z, k, ee, e, hv, hd⟩ := absDate_spec (dateDays y m dd)
  obtain ⟨rfl, rfl, rfl⟩ := dateDays_inj hv h hd
  exact e

end time

/-! ## Decimal digits -/

namespace time

theorem digitVal_digitChar {k : Nat} (h : k < 10) : digitVal (digitChar k) = k := by
  interval_cases k <;> rfl

theorem isDigit_digitChar {k : Nat} (h : k < 10) : (digitChar k).isDigit = true := by
  interval_cases k <;> rfl

theorem digitsValue_append_single (xs : List Char) (c : Char) :
    digitsValue (xs ++ [c]) = 10 * digitsValue xs + digitVal c := by
  simp [digitsValue, List.foldl_append]

theorem decimalAux_acc (fuel : Nat) : ∀ (u : Nat) (acc : List Char),
    decimalAux fuel u acc = decimalAux fuel u [] ++ acc := by
  induction fuel with
  | zero => intro u acc; simp [decimalAux]
  | succ f ih =>
    intro u acc
    simp only [decimalAux]
    split
    · simp
    · rw [ih (u / 10) (digitChar (u % 10) :: acc), ih (u / 10) [digitChar (u % 10)]]
      simp

/-- The digits that `appendInt` assembles are decimal digits with the value
of the number. -/
theorem decimalAux_spec (fuel : Nat) : ∀ u : Nat, u < fuel →
    (∀ c ∈ decimalAux fuel u [], c.isDigit = true) ∧
    digitsValue (decimalAux fuel u []) = u ∧ decimalAux fuel u [] ≠ [] := by
  induction fuel with
  | zero => intro u h; omega
  | succ f ih =>
    intro u hu
    simp only [decimalAux]
    split
    · rename_i h10
      refine ⟨?_, ?_, by simp⟩
      · intro c hc
        simp only [List.mem_singleton] at hc
        rw [hc]; exact isDigit_digitChar h10
      · simp [digitsValue, digitVal_digitChar h10]
    · rename_i h10
      rw [decimalAux_acc]
      obtain ⟨h1, h2, h3⟩ := ih (u / 10) (by omega)
      refine ⟨?_, ?_, by simp⟩
      · intro c hc
        simp only [List.mem_append, List.mem_singleton] at hc
        rcases hc with hc | hc
        · exact h1 c hc
        · rw [hc]; exact isDigit_digitChar (by omega)
      · rw [digitsValue_append_single, h2, digitVal_digitChar (by omega)]
        omega

theorem decimal_isDigit (u : Nat) : ∀ c ∈ decimal u, c.isDigit = true :=
  (decimalAux_spec (u + 1) u (by omega)).1

theorem digitsValue_decimal (u : Nat) : digitsValue (decimal u) = u :=
  (decimalAux_spec (u + 1) u (by omega)).2.1

theorem decimal_ne_nil (u : Nat) : decimal u ≠ [] :=
  (decimalAux_spec (u + 1) u (by omega)).2.2

theorem digitsValue_cons (c : Char) (cs : List Char) :
    digitsValue (c :: cs) = digitVal c * 10 ^ cs.length + digitsValue cs := by
  induction cs using List.reverseRecOn generalizing c with
  | nil => simp [digitsValue]
  | append_singleton xs x ih =>
    rw [← List.cons_append, digitsValue_append_single, digitsValue_append_single, ih]
    simp [pow_succ]
    ring

theorem digitsValue_zeros (k : Nat) (cs : List Char) :
    digitsValue (List.replicate k (Char.ofNat 48) ++ cs) = digitsValue cs := by
  induction k with
  | zero => simp
  | succ k ih =>
    rw [List.replicate_succ, List.cons_append, digitsValue_cons, ih]
    have : digitVal (Char.ofNat 48) = 0 := rfl
    simp [this]

/-- What `appendInt` writes determines the number. -/
theorem readInt_appendInt (x : Int) (w : Nat) : readInt (appendInt x w) = x := by
  unfold appendInt
  simp only []
  split
  · rename_i hneg
    simp only [readInt, if_true, digitsValue_zeros, digitsValue_decimal]
    omega
  · rename_i hpos
    have hne := decimal_ne_nil x.natAbs
    have hd := decimal_isDigit x.natAbs
    generalize hp : List.replicate (w - (decimal x.natAbs).length) (Char.ofNat 48) ++
      decimal x.natAbs = padded
    have hv : digitsValue padded = x.natAbs := by
      rw [← hp, digitsValue_zeros, digitsValue_decimal]
    have hall : ∀ c ∈ padded, c.isDigit = true := by
      intro c hc
      rw [← hp] at hc
      simp only [List.mem_append, List.mem_replicate] at hc
      rcases hc with ⟨_, rfl⟩ | hc
      · rfl
      · exact hd c hc
    cases hpad : padded with
    | nil =>
      rw [hpad] at hp
      simp at hp
      exact absurd hp.2 hne
    | cons c r =>
      have hc : c.isDigit = true := hall c (by rw [hpad]; simp)
      have hc2 : c ≠ Char.ofNat 45 := by
        rintro rfl
        exact absurd hc (by decide)
      simp only [readInt, if_neg hc2]
      rw [← hpad, hv]
      omega

theorem appendInt_inj {x y : Int} {w : Nat} (h : appendInt x w = appendInt y w) : x = y := by
  have := congrArg readInt h
  simpa [readInt_appendInt] using this

theorem appendInt_two_length {k : Int} (h0 : 0 ≤ k) (h1 : k < 100) :
    (appendInt k 2).length = 2 := by
  interval_cases k <;> rfl

/-- Different dates are written differently. -/
theorem formatDate_inj {y m dd z k ee : Int} (hm : 0 ≤ m ∧ m < 100) (hd : 0 ≤ dd ∧ dd < 100)
    (hk : 0 ≤ k ∧ k < 100) (he : 0 ≤ ee ∧ ee < 100)
    (h : formatDate (y, m, dd) = formatDate (z, k, ee)) : y = z ∧ m = k ∧ dd = ee := by
  have h0 : appendInt y 4 ++ appendInt m 2 ++ appendInt dd 2 =
      appendInt z 4 ++ appendInt k 2 ++ appendInt ee 2 := congrArg String.data h
  have l1 := appendInt_two_length hd.1 hd.2
  have l2 := appendInt_two_length he.1 he.2
  have l3 := appendInt_two_length hm.1 hm.2
  have l4 := appendInt_two_length hk.1 hk.2
  obtain ⟨h1, h2⟩ := List.append_inj' h0 (by rw [l1, l2])
  obtain ⟨h3, h4⟩ := List.append_inj' h1 (by rw [l3, l4])
  exact ⟨appendInt_inj h3, appendInt_inj h4, appendInt_inj h2⟩

end time

/-! ## Times at midnight UTC -/

namespace time

theorem utcMidnight_abs_div (d : Int) : (utcMidnight d).abs / nsPerDay = d := by
  simp only [utcMidnight, Time.abs, nsPerDay]
  omega

theorem utcMidnight_abs_mod (d : Int) : (utcMidnight d).abs % nsPerDay = 0 := by
  simp only [utcMidnight, Time.abs, nsPerDay]
  omega

theorem Date_utc (y m dd : Int) : Date y m dd 0 0 = utcMidnight (dateDays y m dd) := by
  simp [Date, utcMidnight]

theorem utcMidnight_Date (d : Int) : (utcMidnight d).Date = absDate d := by
  simp only [Time.Date, utcMidnight_abs_div]

theorem Format_eq (t : Time) : t.Format = formatDate t.Date := rfl

theorem dateDays_add_day (y m dd n : Int) : dateDays y m (dd + n) = dateDays y m dd + n := by
  simp only [dateDays]
  omega

/-- Adding days to a midnight UTC moves the day number by as much. -/
theorem AddDate_days (d n : Int) : (utcMidnight d).AddDate 0 0 n = utcMidnight (d + n) := by
  have h := dateDays_absDate d
  simp only [Time.AddDate, utcMidnight_Date, utcMidnight_abs_mod, add_zero]
  show Date _ _ _ 0 0 = _
  rw [Date_utc, dateDays_add_day, h]

theorem daysIn_le (m y : Int) (h1 : 1 ≤ m) (h12 : m ≤ 12) : 28 ≤ daysIn m y ∧ daysIn m y ≤ 31 := by
  have hc := daysBefore_cases m h1 h12
  unfold daysIn
  split <;> omega

/-- Adding a year to a midnight UTC gives midnight UTC of the same month and
day in the next year, as `Date` normalises it, at least 365 days later. -/
theorem AddDate_year (d : Int) :
    ∃ y m dd : Int, absDate d = (y, m, dd) ∧ validDate y m dd ∧ dateDays y m dd = d ∧
      (utcMidnight d).AddDate 1 0 0 = utcMidnight (dateDays (y + 1) m dd) ∧
      d + 365 ≤ dateDays (y + 1) m dd ∧
      (¬(m = 2 ∧ dd = 29) → validDate (y + 1) m dd) := by
  obtain ⟨y, m, dd, e, hv, hd⟩ := absDate_spec d
  refine ⟨y, m, dd, e, hv, hd, ?_, ?_, ?_⟩
  · simp only [Time.AddDate, utcMidnight_Date, utcMidnight_abs_mod, add_zero, e]
    show Date _ _ _ 0 0 = _
    rw [Date_utc]
  · rw [← hd, dateDays_of_month hv.1 hv.2.1, dateDays_of_month hv.1 hv.2.1,
      daysSinceEpoch_succ]
    cases isLeap y <;> cases isLeap (y + 1) <;>
      simp only [Bool.false_eq_true, false_and, if_false, true_and, if_true] <;>
      (try split) <;> omega
  · intro hne
    obtain ⟨h1, h12, hd1, hd2⟩ := hv
    refine ⟨h1, h12, hd1, ?_⟩
    have hc := daysBefore_cases m h1 h12
    unfold daysIn at hd2 ⊢
    split at hd2 <;> split <;> omega

/-- Different days are written differently. -/
theorem Format_utcMidnight_inj {d e : Int}
    (h : (utcMidnight d).Format = (utcMidnight e).Format) : d = e := by
  rw [Format_eq, Format_eq, utcMidnight_Date, utcMidnight_Date] at h
  obtain ⟨y, m, dd, e1, hv1, hd1⟩ := absDate_spec d
  obtain ⟨z, k, ee, e2, hv2, hd2⟩ := absDate_spec e
  rw [e1, e2] at h
  have b1 := daysIn_le m y hv1.1 hv1.2.1
  have b2 := daysIn_le k z hv2.1 hv2.2.1
  obtain ⟨h1, h12, hd1', hd2'⟩ := hv1
  obtain ⟨k1, k12, he1', he2'⟩ := hv2
  obtain ⟨rfl, rfl, rfl⟩ := formatDate_inj (by omega) (by omega) (by omega) (by omega) h
  omega

theorem getnum2_spec {value rest : List Char} {v : Int} (h : getnum2 value = some (v, rest)) :
    0 ≤ v ∧ ∃ a b : Char, value = a :: b :: rest := by
  unfold getnum2 at h
  split at h
  · split at h
    · simp only [Option.some.injEq, Prod.mk.injEq] at h
      obtain ⟨rfl, rfl⟩ := h
      exact ⟨by omega, _, _, rfl⟩
    · exact absurd h (by simp)
  · exact absurd h (by simp)

/-- What `Parse` accepts is midnight UTC of a valid date of a year from 0 on. -/
theorem Parse_spec {value : String} {t : Time} (h : Parse value = .ok t) :
    ∃ y m dd : Int, 0 ≤ y ∧ validDate y m dd ∧ t = utcMidnight (dateDays y m dd) := by
  unfold Parse at h
  simp only [] at h
  split at h
  · split at h
    · split at h
      · exact absurd h (by simp)
      · rename_i month rest1 hg1
        split at h
        · exact absurd h (by simp)
        · rename_i hmonth
          split at h
          · exact absurd h (by simp)
          · rename_i day rest2 hg2
            split at h
            · exact absurd h (by simp)
            · split at h
              · exact absurd h (by simp)
              · rename_i hday
                simp only [Except.ok.injEq] at h
                rw [Date_utc] at h
                refine ⟨_, month, day, by omega, ⟨by omega, by omega, by omega, by omega⟩, h.symm⟩
    · exact absurd h (by simp)
  · exact absurd h (by simp)

end time

/-! ## The loops of NextDate -/

namespace usecase

open time

/-- Both loops of NextDate, started at midnight UTC of day `d`, stop within
the budget at the first repetition of the step that lies after `now`. -/
theorem advance_spec (now : Time) (years months days : Int) (step : Int → Int)
    (hstep : ∀ d, (utcMidnight d).AddDate years months days = utcMidnight (step d))
    (hinc : ∀ d, d + 1 ≤ step d) :
    ∀ (budget : Nat) (d : Int), ((now.ns - d * nsPerDay) / nsPerDay).toNat + 2 ≤ budget →
      ∃ k : Nat, 1 ≤ k ∧
        advance now years months days budget (utcMidnight d) = some (utcMidnight (step^[k] d)) ∧
        now.ns < step^[k] d * nsPerDay ∧
        ∀ j : Nat, 1 ≤ j → j < k → step^[j] d * nsPerDay ≤ now.ns := by
  intro budget
  induction budget with
  | zero => intro d h; omega
  | succ b ih =>
    intro d hb
    simp only [advance, hstep]
    by_cases hafter : (utcMidnight (step d)).After now = true
    · refine ⟨1, le_refl _, ?_, ?_, ?_⟩
      · simp [hafter]
      · simpa [Time.After, utcMidnight] using hafter
      · intro j h1 h2; omega
    · have hne : ((utcMidnight (step d)).Format == (utcMidnight d).Format) = false := by
        rw [beq_eq_false_iff_ne]
        intro h
        have := Format_utcMidnight_inj h
        have := hinc d
        omega
      have hle : step d * nsPerDay ≤ now.ns := by
        simpa [Time.After, utcMidnight] using hafter
      have hd1 := hinc d
      have hb2 : ((now.ns - step d * nsPerDay) / nsPerDay).toNat + 2 ≤ b := by
        simp only [nsPerDay] at hb hle ⊢
        omega
      obtain ⟨k, hk1, hk2, hk3, hk4⟩ := ih (step d) hb2
      refine ⟨k + 1, by omega, ?_, ?_, ?_⟩
      · simp only [Bool.not_eq_true] at hafter
        simp only [hafter, hne, Bool.or_self, Bool.false_eq_true, if_false]
        rw [hk2, Function.iterate_succ_apply]
      · rw [Function.iterate_succ_apply]; exact hk3
      · intro j hj1 hj2
        obtain ⟨i, rfl⟩ : ∃ i, j = i + 1 := ⟨j - 1, by omega⟩
        rw [Function.iterate_succ_apply]
        rcases Nat.eq_zero_or_pos i with rfl | hi
        · simpa using hle
        · exact hk4 i hi (by omega)

theorem loopBudget_utcMidnight (now : Time) (d : Int) :
    ((now.ns - d * nsPerDay) / nsPerDay).toNat + 2 ≤ loopBudget now (utcMidnight d) := by
  simp [loopBudget, utcMidnight]

theorem iterate_add_days (n d : Int) (k : Nat) : (fun x => x + n)^[k] d = d + k * n := by
  induction k generalizing d with
  | zero => simp
  | succ k ih =>
    rw [Function.iterate_succ_apply, ih]
    push_cast
    ring

/-- The loop of the day rule. -/
theorem advance_days (now : Time) (n d : Int) (hn : 1 ≤ n) :
    ∃ k : Nat, 1 ≤ k ∧
      advance now 0 0 n (loopBudget now (utcMidnight d)) (utcMidnight d) =
        some (utcMidnight (d + k * n)) ∧
      now.ns < (d + k * n) * nsPerDay ∧
      ∀ j : Nat, 1 ≤ j → j < k → (d + j * n) * nsPerDay ≤ now.ns := by
  obtain ⟨k, h1, h2, h3, h4⟩ := advance_spec now 0 0 n (fun x => x + n)
    (fun d => AddDate_days d n) (fun d => by show d + 1 ≤ d + n; omega) _ d (loopBudget_utcMidnight now d)
  simp only [iterate_add_days] at h2 h3 h4
  exact ⟨k, h1, h2, h3, h4⟩

theorem AddDate_yearStep (d : Int) :
    (utcMidnight d).AddDate 1 0 0 = utcMidnight (yearStep d) ∧ d + 365 ≤ yearStep d := by
  obtain ⟨y, m, dd, e, _, _, h1, h2, _⟩ := AddDate_year d
  simp only [yearStep, e]
  exact ⟨h1, h2⟩

theorem validDate_year {y m dd : Int} (z : Int) (h : validDate y m dd)
    (hne : ¬(m = 2 ∧ dd = 29)) : validDate z m dd := by
  obtain ⟨h1, h12, hd1, hd2⟩ := h
  refine ⟨h1, h12, hd1, ?_⟩
  have hc := daysBefore_cases m h1 h12
  unfold daysIn at hd2 ⊢
  split at hd2 <;> split <;> omega

theorem iterate_yearStep {y m dd : Int} (h : validDate y m dd) (hne : ¬(m = 2 ∧ dd = 29))
    (k : Nat) : yearStep^[k] (dateDays y m dd) = dateDays (y + k) m dd := by
  induction k generalizing y with
  | zero => simp
  | succ k ih =>
    rw [Function.iterate_succ_apply]
    have e : yearStep (dateDays y m dd) = dateDays (y + 1) m dd := by
      simp only [yearStep, absDate_dateDays h]
    rw [e, ih (validDate_year (y + 1) h hne)]
    congr 1
    push_cast
    ring

/-- The loop of the year rule. -/
theorem advance_years (now : Time) (d : Int) :
    ∃ k : Nat, 1 ≤ k ∧
      advance now 1 0 0 (loopBudget now (utcMidnight d)) (utcMidnight d) =
        some (utcMidnight (yearStep^[k] d)) ∧
      now.ns < yearStep^[k] d * nsPerDay ∧
      ∀ j : Nat, 1 ≤ j → j < k → yearStep^[j] d * nsPerDay ≤ now.ns :=
  advance_spec now 1 0 0 yearStep (fun d => (AddDate_yearStep d).1)
    (fun d => by have := (AddDate_yearStep d).2; omega) _ d (loopBudget_utcMidnight now d)

end usecase

/-! ## Reading rule texts -/

namespace fmt

open time

theorem isDigit_iff (c : Char) : c.isDigit = true ↔ 48 ≤ c.toNat ∧ c.toNat ≤ 57 := by
  simp [Char.isDigit, Char.toNat, UInt32.le_def, BitVec.le_def, UInt32.toNat]

theorem isSpace_of_isDigit {c : Char} (h : c.isDigit = true) : isSpace c = false := by
  rw [isDigit_iff] at h
  simp only [isSpace]
  simp
  omega

theorem ne_of_isDigit {c : Char} (h : c.isDigit = true) (k : Nat) (hk : k < 48) :
    c ≠ Char.ofNat k := by
  rintro rfl
  rw [isDigit_iff] at h
  have : (Char.ofNat k).toNat = k := by
    interval_cases k <;> rfl
  omega

theorem SkipSpace_digit {c : Char} (r : List Char) (h : c.isDigit = true) :
    SkipSpace (c :: r) = some (c :: r) := by
  have h13 := ne_of_isDigit h 13 (by omega)
  have h10 := ne_of_isDigit h 10 (by omega)
  simp [SkipSpace, h13, h10, isSpace_of_isDigit h]

theorem takeWhile_all {p : Char → Bool} : ∀ {l : List Char}, (∀ c ∈ l, p c = true) →
    l.takeWhile p = l
  | [], _ => rfl
  | c :: r, h => by
    rw [List.takeWhile_cons, if_pos (h c (by simp)),
      takeWhile_all (fun x hx => h x (List.mem_cons_of_mem _ hx))]

/-- A run of digits is read as its value when that fits 64 bits. -/
theorem scanInt_digits {ds : List Char} (hne : ds ≠ []) (hall : ∀ c ∈ ds, c.isDigit = true) :
    scanInt ds = if digitsValue ds < 2 ^ 63 then some (digitsValue ds : Int) else none := by
  cases ds with
  | nil => exact absurd rfl hne
  | cons c r =>
    have hc : c.isDigit = true := hall c (by simp)
    have h43 := ne_of_isDigit hc 43 (by omega)
    have h45 := ne_of_isDigit hc 45 (by omega)
    simp only [scanInt, SkipSpace_digit r hc, if_neg h43, if_neg h45, hc, if_true,
      takeWhile_all hall, ParseInt]
    simp

/-- The text `d <digits>` is read as the word `d` and the value of the
digits, or 0 when the value does not fit 64 bits. -/
theorem Sscanf_daily {ds : List Char} (hne : ds ≠ []) (hall : ∀ c ∈ ds, c.isDigit = true) :
    Sscanf ("d " ++ String.mk ds) =
      ("d", if digitsValue ds < 2 ^ 63 then (digitsValue ds : Int) else 0) := by
  have e : ("d " ++ String.mk ds).data = Char.ofNat 100 :: Char.ofNat 32 :: ds := rfl
  have hs : scanWord (Char.ofNat 100 :: Char.ofNat 32 :: ds) =
      some ([Char.ofNat 100], Char.ofNat 32 :: ds) := by
    simp [scanWord, SkipSpace, isSpace, List.span_eq_take_drop, List.takeWhile, List.dropWhile]
  have ha : advanceSpace (Char.ofNat 32 :: ds) = some ds := by
    cases ds with
    | nil => exact absurd rfl hne
    | cons c r =>
      have hc : c.isDigit = true := hall c (by simp)
      have hsp : (isSpace c && c != Char.ofNat 10) = false := by
        rw [isSpace_of_isDigit hc]; rfl
      have h32 : isSpace (Char.ofNat 32) = true := by decide
      have hnl : Char.ofNat 32 ≠ Char.ofNat 10 := by decide
      simp only [advanceSpace, h32, Bool.not_true, Bool.false_eq_true, if_false, if_neg hnl,
        List.dropWhile, hsp]
  have hd : (String.mk [Char.ofNat 100]) = "d" := rfl
  simp only [Sscanf, e, hs, ha, scanInt_digits hne hall, hd]
  by_cases hlt : digitsValue ds < 2 ^ 63
  · simp only [if_pos hlt]
  · simp only [if_neg hlt]

theorem Sscanf_dailyRule (n : Nat) :
    Sscanf (usecase.dailyRule n) = ("d", if n < 2 ^ 63 then (n : Int) else 0) := by
  have h := Sscanf_daily (decimal_ne_nil n) (decimal_isDigit n)
  rw [digitsValue_decimal] at h
  exact h

theorem Sscanf_yearly : Sscanf "y" = ("y", 0) := by decide

theorem Sscanf_empty : Sscanf "" = ("", 0) := by decide

end fmt

/-! ## NextDate -/

namespace usecase

open time

theorem ruleAccepted_ne_empty {rule : String} (h : ruleAccepted rule) : rule ≠ "" := by
  rintro rfl
  revert h
  decide

theorem ruleAccepted_yearly : ruleAccepted "y" := by decide

theorem ruleAccepted_dailyRule {n : Nat} (h1 : 1 ≤ n) (h400 : n ≤ 400) :
    ruleAccepted (dailyRule n) := by
  have hlt : n < 2 ^ 63 := by omega
  right
  rw [fmt.Sscanf_dailyRule, if_pos hlt]
  exact ⟨rfl, by simp only []; omega, by simp only []; omega⟩

theorem NextDate_parse_error (now : Time) {anchor rule : String} {e : Err}
    (hne : rule ≠ "") (hp : Parse anchor = .error e) :
    NextDate now anchor rule = .error (.incorrectDate anchor) := by
  simp only [NextDate, if_neg hne, hp]

theorem NextDate_rejected (now : Time) {anchor rule : String} {t0 : Time}
    (hne : rule ≠ "") (hp : Parse anchor = .ok t0) (hr : ¬ruleAccepted rule) :
    NextDate now anchor rule = .error (.incorrectRepeat rule) := by
  simp only [ruleAccepted, not_or, not_and] at hr
  simp only [NextDate, if_neg hne, hp]
  by_cases hd : (fmt.Sscanf rule).1 = "d"
  · rw [if_pos hd, if_neg]
    intro h
    exact hr.2 hd h.1 h.2
  · rw [if_neg hd, if_neg hr.1]

/-- The day rule: the result is the first date after `now` among the start
date plus one, two, three, ... times `n` days. -/
theorem NextDate_daily (now : Time) {anchor rule : String} {d : Int}
    (hp : Parse anchor = .ok (utcMidnight d)) (hw : (fmt.Sscanf rule).1 = "d")
    (h1 : 0 < (fmt.Sscanf rule).2) (h400 : (fmt.Sscanf rule).2 ≤ 400) :
    ∃ k : Nat, 1 ≤ k ∧
      NextDate now anchor rule = .ok (utcMidnight (d + k * (fmt.Sscanf rule).2)).Format ∧
      now.ns < (d + k * (fmt.Sscanf rule).2) * nsPerDay ∧
      ∀ j : Nat, 1 ≤ j → j < k → (d + j * (fmt.Sscanf rule).2) * nsPerDay ≤ now.ns := by
  have hne : rule ≠ "" := ruleAccepted_ne_empty (Or.inr ⟨hw, h1, h400⟩)
  obtain ⟨k, hk, ha, h3, h4⟩ := advance_days now (fmt.Sscanf rule).2 d (by omega)
  refine ⟨k, hk, ?_, h3, h4⟩
  simp only [NextDate, if_neg hne, hp, if_pos hw, if_pos (And.intro h1 h400), ha]

/-- The year rule: the result is the first date after `now` among the start
date moved on by one, two, three, ... years. -/
theorem NextDate_yearly (now : Time) {anchor rule : String} {d : Int}
    (hp : Parse anchor = .ok (utcMidnight d)) (hw : (fmt.Sscanf rule).1 = "y") :
    ∃ k : Nat, 1 ≤ k ∧
      NextDate now anchor rule = .ok (utcMidnight (yearStep^[k] d)).Format ∧
      now.ns < yearStep^[k] d * nsPerDay ∧
      ∀ j : Nat, 1 ≤ j → j < k → yearStep^[j] d * nsPerDay ≤ now.ns := by
  have hne : rule ≠ "" := ruleAccepted_ne_empty (Or.inl hw)
  have hnd : (fmt.Sscanf rule).1 ≠ "d" := by rw [hw]; decide
  obtain ⟨k, hk, ha, h3, h4⟩ := advance_years now d
  refine ⟨k, hk, ?_, h3, h4⟩
  simp only [NextDate, if_neg hne, hp, if_neg hnd, if_pos hw, ha]

/-- An accepted rule and a start date that parses give the text of a date
whose midnight UTC lies after `now`. -/
theorem NextDate_accepted (now : Time) {anchor rule : String} {t0 : Time}
    (hp : Parse anchor = .ok t0) (hr : ruleAccepted rule) :
    ∃ d : Int, NextDate now anchor rule = .ok (utcMidnight d).Format ∧
      (utcMidnight d).After now = true := by
  obtain ⟨y, m, dd, _, _, rfl⟩ := Parse_spec hp
  rcases hr with hw | ⟨hw, h1, h400⟩
  · obtain ⟨k, _, h2, h3, _⟩ := NextDate_yearly now hp hw
    exact ⟨_, h2, by simpa [Time.After, utcMidnight] using h3⟩
  · obtain ⟨k, _, h2, h3, _⟩ := NextDate_daily now hp hw h1 h400
    exact ⟨_, h2, by simpa [Time.After, utcMidnight] using h3⟩

end usecase

open time usecase

set_option maxRecDepth 100000

/-- C1: for every reference time `now`, every anchor that parses as a
YYYYMMDD date and every rule that NextDate accepts (the text `y`, the text
`d n` with n from 1 to 400, or any other text it reads as one of the two),
NextDate succeeds, and what it returns is the text of a date whose start
(midnight UTC, as `time.Parse` reads dates) is strictly after `now`. -/
theorem nextDate_strictly_after_now (now : Time) (anchor rule : String) (t0 : Time)
    (hanchor : Parse anchor = .ok t0)
    (hrule : rule = "y" ∨ (∃ n : Nat, 1 ≤ n ∧ n ≤ 400 ∧ rule = dailyRule n) ∨
      ruleAccepted rule) :
    ∃ d : Int, NextDate now anchor rule = .ok (utcMidnight d).Format ∧
      (utcMidnight d).After now = true := by
  apply NextDate_accepted now hanchor
  rcases hrule with rfl | ⟨n, h1, h400, rfl⟩ | h
  · exact ruleAccepted_yearly
  · exact ruleAccepted_dailyRule h1 h400
  · exact h

/-- A use of C1: the rule `d 7` from 1 January 2024, seen on 10 January 2024. -/
theorem nextDate_strictly_after_now_witness :
    Parse "20240101" = .ok (Date 2024 1 1 0 0) ∧
    ("d 7" = "y" ∨ (∃ n : Nat, 1 ≤ n ∧ n ≤ 400 ∧ "d 7" = dailyRule n) ∨ ruleAccepted "d 7") ∧
    ∃ d : Int, NextDate (Date 2024 1 10 0 0) "20240101" "d 7" = .ok (utcMidnight d).Format ∧
      (utcMidnight d).After (Date 2024 1 10 0 0) = true :=
  ⟨by decide, Or.inr (Or.inl ⟨7, by decide, by decide, by decide⟩),
    nextDate_strictly_after_now (Date 2024 1 10 0 0) "20240101" "d 7" (Date 2024 1 1 0 0)
      (by decide) (Or.inr (Or.inl ⟨7, by decide, by decide, by decide⟩))⟩

/-- C2, as stated, fails: seen on 10 January 2024, the rule `d 7` from the
anchor 1 February 2024 gives 8 February 2024, and that date minus 7 days is
the anchor itself, which is after `now`. -/
theorem nextDate_daily_tight_counterexample :
    NextDate (Date 2024 1 10 0 0) "20240201" "d 7" = .ok "20240208" ∧
    Parse "20240208" = .ok (Date 2024 2 8 0 0) ∧
    ((Date 2024 2 8 0 0).AddDate 0 0 (-7)).After (Date 2024 1 10 0 0) = true := by
  decide

/-- C2, amended: for a day rule `d n` with n from 1 to 400 and an anchor that
parses, the result is the anchor plus k times n days for the smallest k of at
least 1 that puts it strictly after `now`. So the result minus n days is on or
before `now` whenever the anchor is on or before `now`; when the anchor is
after `now`, the result is the anchor plus n days. -/
theorem nextDate_daily_first (now : Time) (anchor : String) (n : Nat) (t0 : Time)
    (hanchor : Parse anchor = .ok t0) (h1 : 1 ≤ n) (h400 : n ≤ 400) :
    ∃ k : Nat, 1 ≤ k ∧
      NextDate now anchor (dailyRule n) = .ok (t0.AddDate 0 0 (k * n)).Format ∧
      (t0.AddDate 0 0 (k * n)).After now = true ∧
      (∀ j : Nat, 1 ≤ j → j < k → (t0.AddDate 0 0 (j * n)).After now = false) ∧
      (t0.After now = false →
        ((t0.AddDate 0 0 (k * n)).AddDate 0 0 (-(n : Int))).After now = false) ∧
      (t0.After now = true → k = 1) := by
  obtain ⟨y, m, dd, _, _, rfl⟩ := Parse_spec hanchor
  have hs := fmt.Sscanf_dailyRule n
  rw [if_pos (show n < 2 ^ 63 by omega)] at hs
  have hw : (fmt.Sscanf (dailyRule n)).1 = "d" := by rw [hs]
  have hv : (fmt.Sscanf (dailyRule n)).2 = (n : Int) := by rw [hs]
  obtain ⟨k, hk, h2, h3, h4⟩ := NextDate_daily now hanchor hw (by rw [hv]; omega)
    (by rw [hv]; omega)
  rw [hv] at h2 h3
  simp only [hv] at h4
  generalize dateDays y m dd = d at *
  have hmin : ∀ j : Nat, 1 ≤ j → j < k →
      ((utcMidnight d).AddDate 0 0 (j * n)).After now = false := by
    intro j hj1 hj2
    have := h4 j hj1 hj2
    rw [AddDate_days]
    simpa [Time.After, utcMidnight] using this
  refine ⟨k, hk, ?_, ?_, hmin, ?_, ?_⟩
  · rw [AddDate_days]; exact h2
  · rw [AddDate_days]; simpa [Time.After, utcMidnight] using h3
  · intro h0
    rw [AddDate_days, AddDate_days]
    obtain ⟨i, rfl⟩ : ∃ i, k = i + 1 := ⟨k - 1, by omega⟩
    have e : d + ((i + 1 : Nat) : Int) * n + -(n : Int) = d + (i : Int) * n := by
      push_cast; ring
    rw [e]
    rcases Nat.eq_zero_or_pos i with rfl | hi
    · simpa using h0
    · have := h4 i hi (by omega)
      simpa [Time.After, utcMidnight] using this
  · intro h0
    by_contra hk1
    have := h4 1 (le_refl _) (by omega)
    simp only [Time.After, utcMidnight, decide_eq_true_eq] at h0
    simp only [nsPerDay] at this h0
    push_cast at this
    omega

/-- A use of the amended C2: the rule `d 7` from 1 January 2024, seen on
10 January 2024. -/
theorem nextDate_daily_first_witness :
    Parse "20240101" = .ok (Date 2024 1 1 0 0) ∧ 1 ≤ 7 ∧ 7 ≤ 400 ∧
    NextDate (Date 2024 1 10 0 0) "20240101" (dailyRule 7) = .ok "20240115" ∧
    ∃ k : Nat, 1 ≤ k ∧
      NextDate (Date 2024 1 10 0 0) "20240101" (dailyRule 7) =
        .ok ((Date 2024 1 1 0 0).AddDate 0 0 (k * (7 : Nat))).Format ∧
      ((Date 2024 1 1 0 0).AddDate 0 0 (k * (7 : Nat))).After (Date 2024 1 10 0 0) = true ∧
      (∀ j : Nat, 1 ≤ j → j < k →
        ((Date 2024 1 1 0 0).AddDate 0 0 (j * (7 : Nat))).After (Date 2024 1 10 0 0) = false) ∧
      ((Date 2024 1 1 0 0).After (Date 2024 1 10 0 0) = false →
        (((Date 2024 1 1 0 0).AddDate 0 0 (k * (7 : Nat))).AddDate 0 0 (-((7 : Nat) : Int))).After
          (Date 2024 1 10 0 0) = false) ∧
      ((Date 2024 1 1 0 0).After (Date 2024 1 10 0 0) = true → k = 1) :=
  ⟨by decide, by decide, by decide, by decide,
    nextDate_daily_first (Date 2024 1 10 0 0) "20240101" 7 (Date 2024 1 1 0 0)
      (by decide) (by decide) (by decide)⟩

/-- C3, as stated, fails: seen on 26 January 2024, the rule `y` from the
anchor 1 July 2025 gives 1 July 2026, although 1 July of the smaller years
2025 and 2024 is strictly after `now` as well. -/
theorem nextDate_yearly_counterexample :
    NextDate (Date 2024 1 26 0 0) "20250701" "y" = .ok "20260701" ∧
    Parse "20260701" = .ok (Date 2026 7 1 0 0) ∧
    (Date 2025 7 1 0 0).After (Date 2024 1 26 0 0) = true ∧
    (Date 2024 7 1 0 0).After (Date 2024 1 26 0 0) = true := by
  decide

/-- C3, amended: for the rule `y`, an anchor that parses and is not
29 February, and every `now`, the result has the month and the day of the
anchor, and its year is the smallest year greater than the year of the anchor
for which that month and day is strictly after `now`. -/
theorem nextDate_yearly_first (now : Time) (anchor : String) (t0 : Time) (y m dd : Int)
    (hanchor : Parse anchor = .ok t0) (hdate : t0.Date = (y, m, dd))
    (hne : ¬(m = 2 ∧ dd = 29)) :
    ∃ k : Nat, 1 ≤ k ∧
      NextDate now anchor "y" = .ok (Date (y + k) m dd 0 0).Format ∧
      (Date (y + k) m dd 0 0).Date = (y + k, m, dd) ∧
      (Date (y + k) m dd 0 0).After now = true ∧
      ∀ j : Nat, 1 ≤ j → j < k → (Date (y + j) m dd 0 0).After now = false := by
  obtain ⟨z, k, ee, _, hv, rfl⟩ := Parse_spec hanchor
  rw [utcMidnight_Date, absDate_dateDays hv] at hdate
  simp only [Prod.mk.injEq] at hdate
  obtain ⟨rfl, rfl, rfl⟩ := hdate
  have hw : (fmt.Sscanf "y").1 = "y" := by decide
  obtain ⟨n, hn, h2, h3, h4⟩ := NextDate_yearly now hanchor hw
  simp only [iterate_yearStep hv hne] at h2 h3 h4
  refine ⟨n, hn, ?_, ?_, ?_, ?_⟩
  · rw [Date_utc]; exact h2
  · rw [Date_utc, utcMidnight_Date, absDate_dateDays (validDate_year _ hv hne)]
  · rw [Date_utc]; simpa [Time.After, utcMidnight] using h3
  · intro j hj1 hj2
    have := h4 j hj1 hj2
    rw [Date_utc]; simpa [Time.After, utcMidnight] using this

/-- A use of the amended C3: the rule `y` from 15 March 2023, seen on
26 January 2024. -/
theorem nextDate_yearly_first_witness :
    Parse "20230315" = .ok (Date 2023 3 15 0 0) ∧ (Date 2023 3 15 0 0).Date = (2023, 3, 15) ∧
    ¬((3 : Int) = 2 ∧ (15 : Int) = 29) ∧
    NextDate (Date 2024 1 26 0 0) "20230315" "y" = .ok "20240315" ∧
    ∃ k : Nat, 1 ≤ k ∧
      NextDate (Date 2024 1 26 0 0) "20230315" "y" = .ok (Date (2023 + k) 3 15 0 0).Format ∧
      (Date (2023 + k) 3 15 0 0).Date = (2023 + (k : Int), 3, 15) ∧
      (Date (2023 + k) 3 15 0 0).After (Date 2024 1 26 0 0) = true ∧
      ∀ j : Nat, 1 ≤ j → j < k → (Date (2023 + j) 3 15 0 0).After (Date 2024 1 26 0 0) = false :=
  ⟨by decide, by decide, by decide, by decide,
    nextDate_yearly_first (Date 2024 1 26 0 0) "20230315" (Date 2023 3 15 0 0) 2023 3 15
      (by decide) (by decide) (by decide)⟩

/-- C4, as stated, fails: the texts `y 5` and `d 7 junk` are neither `y` nor
`d n`, and NextDate accepts both. -/
theorem nextDate_rule_forms_counterexample :
    NextDate (Date 2024 1 10 0 0) "20240101" "y 5" = .ok "20250101" ∧
    NextDate (Date 2024 1 10 0 0) "20240101" "d 7 junk" = .ok "20240115" ∧
    "y 5" ≠ "y" ∧ (¬∃ n : Nat, "y 5" = dailyRule n) ∧
    "d 7 junk" ≠ "y" ∧ (¬∃ n : Nat, "d 7 junk" = dailyRule n) := by
  refine ⟨by decide, by decide, by decide, ?_, by decide, ?_⟩
  · rintro ⟨n, h⟩
    have h2 : some (Char.ofNat 121) = some (Char.ofNat 100) :=
      congrArg (fun s : String => s.data.head?) h
    exact absurd h2 (by decide)
  · rintro ⟨n, h⟩
    have h2 : [Char.ofNat 55, Char.ofNat 32, Char.ofNat 106, Char.ofNat 117, Char.ofNat 110,
        Char.ofNat 107] = decimal n := congrArg (fun s : String => s.data.drop 2) h
    have h3 := decimal_isDigit n (Char.ofNat 32) (by rw [← h2]; decide)
    exact absurd h3 (by decide)

/-- C4, amended: for an anchor that parses and a rule text that is not empty,
NextDate succeeds exactly when the first word of the text is `y`, or is `d`
and a number from 1 to 400 follows it, as `Sscanf` with `%s %d` reads the
text (what comes after is not looked at). The texts `y` and `d n` with n from
1 to 400 succeed, and every text that does not succeed is rejected with the
error for a wrong rule format. -/
theorem nextDate_rule_forms (now : Time) (anchor rule : String) (t0 : Time)
    (hanchor : Parse anchor = .ok t0) (hne : rule ≠ "") :
    ((rule = "y" ∨ ∃ n : Nat, 1 ≤ n ∧ n ≤ 400 ∧ rule = dailyRule n) →
      ∃ s, NextDate now anchor rule = .ok s) ∧
    ((∃ s, NextDate now anchor rule = .ok s) ↔ ruleAccepted rule) ∧
    (¬ruleAccepted rule → NextDate now anchor rule = .error (.incorrectRepeat rule)) := by
  have hacc : ruleAccepted rule → ∃ s, NextDate now anchor rule = .ok s := by
    intro h
    obtain ⟨d, hd, _⟩ := NextDate_accepted now hanchor h
    exact ⟨_, hd⟩
  refine ⟨?_, ⟨?_, hacc⟩, NextDate_rejected now hne hanchor⟩
  · rintro (rfl | ⟨n, h1, h400, rfl⟩)
    · exact hacc ruleAccepted_yearly
    · exact hacc (ruleAccepted_dailyRule h1 h400)
  · rintro ⟨s, hs⟩
    by_contra hr
    rw [NextDate_rejected now hne hanchor hr] at hs
    exact absurd hs (by simp)

/-- A use of the amended C4: the text `d` alone is rejected. -/
theorem nextDate_rule_forms_witness :
    Parse "20240101" = .ok (Date 2024 1 1 0 0) ∧ "d" ≠ "" ∧ ¬ruleAccepted "d" ∧
    NextDate (Date 2024 1 10 0 0) "20240101" "d" = .error (.incorrectRepeat "d") :=
  ⟨by decide, by decide, by decide,
    (nextDate_rule_forms (Date 2024 1 10 0 0) "20240101" "d" (Date 2024 1 1 0 0)
      (by decide) (by decide)).2.2 (by decide)⟩

/-- C5: for every `now`, NextDate with an anchor that parses fails with the
error for a wrong rule format when the rule is `d n` with n outside 1 to 400
(as the text `d n` with n = 0 or n > 400, or as any text read as the word `d`
and a number outside 1 to 400), or when its word is neither `d` nor `y`; and
NextDate with a rule that is not empty and an anchor that does not parse
fails with the error for a wrong date. No date is returned in these cases. -/
theorem nextDate_errors (now : Time) :
    (∀ (anchor : String) (t0 : Time) (n : Nat), Parse anchor = .ok t0 → (n < 1 ∨ 400 < n) →
      NextDate now anchor (dailyRule n) = .error (.incorrectRepeat (dailyRule n))) ∧
    (∀ (anchor rule : String) (t0 : Time), Parse anchor = .ok t0 →
      (fmt.Sscanf rule).1 = "d" → ¬(0 < (fmt.Sscanf rule).2 ∧ (fmt.Sscanf rule).2 ≤ 400) →
      NextDate now anchor rule = .error (.incorrectRepeat rule)) ∧
    (∀ (anchor rule : String) (t0 : Time), Parse anchor = .ok t0 → rule ≠ "" →
      (fmt.Sscanf rule).1 ≠ "d" → (fmt.Sscanf rule).1 ≠ "y" →
      NextDate now anchor rule = .error (.incorrectRepeat rule)) ∧
    (∀ (anchor rule : String) (e : Err), Parse anchor = .error e → rule ≠ "" →
      NextDate now anchor rule = .error (.incorrectDate anchor)) := by
  have hd : ∀ (anchor rule : String) (t0 : Time), Parse anchor = .ok t0 →
      (fmt.Sscanf rule).1 = "d" → ¬(0 < (fmt.Sscanf rule).2 ∧ (fmt.Sscanf rule).2 ≤ 400) →
      NextDate now anchor rule = .error (.incorrectRepeat rule) := by
    intro anchor rule t0 hp hw hn
    have hne : rule ≠ "" := by
      rintro rfl
      exact absurd hw (by decide)
    apply NextDate_rejected now hne hp
    rintro (h | ⟨_, h1, h2⟩)
    · rw [hw] at h; exact absurd h (by decide)
    · exact hn ⟨h1, h2⟩
  refine ⟨?_, hd, ?_, ?_⟩
  · intro anchor t0 n hp hn
    apply hd anchor _ t0 hp
    · rw [fmt.Sscanf_dailyRule]
    · rw [fmt.Sscanf_dailyRule]
      split
      · simp only []; omega
      · simp
  · intro anchor rule t0 hp hne h1 h2
    apply NextDate_rejected now hne hp
    rintro (h | ⟨h, _⟩)
    · exact h2 h
    · exact h1 h
  · intro anchor rule e hp hne
    exact NextDate_parse_error now hne hp

/-- A use of C5: the rules `d 500`, `d -3` and `x`, and the anchor
`2024-13-40`. -/
theorem nextDate_errors_witness :
    NextDate (Date 2024 1 10 0 0) "20240101" (dailyRule 500) =
      .error (.incorrectRepeat "d 500") ∧
    NextDate (Date 2024 1 10 0 0) "20240101" "d -3" = .error (.incorrectRepeat "d -3") ∧
    NextDate (Date 2024 1 10 0 0) "20240101" "x" = .error (.incorrectRepeat "x") ∧
    NextDate (Date 2024 1 10 0 0) "2024-13-40" "d 7" = .error (.incorrectDate "2024-13-40") :=
  ⟨(nextDate_errors (Date 2024 1 10 0 0)).1 "20240101" (Date 2024 1 1 0 0) 500
      (by decide) (by decide),
   (nextDate_errors (Date 2024 1 10 0 0)).2.1 "20240101" "d -3" (Date 2024 1 1 0 0)
      (by decide) (by decide) (by decide),
   (nextDate_errors (Date 2024 1 10 0 0)).2.2.1 "20240101" "x" (Date 2024 1 1 0 0)
      (by decide) (by decide) (by decide) (by decide),
   (nextDate_errors (Date 2024 1 10 0 0)).2.2.2 "2024-13-40" "d 7" (.parseError "2024-13-40")
      (by decide) (by decide)⟩

/-! ## The repository -/

namespace sqliterepo

open entity

theorem find_map_of_same_key {p : Task → Bool} {f : Task → Task} (hf : ∀ r, p (f r) = p r) :
    ∀ l : List Task, (l.map f).find? p = (l.find? p).map f
  | [] => rfl
  | a :: l => by
    simp only [List.map_cons, List.find?_cons, hf]
    cases p a
    · simpa using find_map_of_same_key hf l
    · simp

theorem GetTask_ok_iff {repo : SqliteRepo} {id : Int} {task : Task} :
    repo.GetTask id = .ok task ↔ repo.rows.find? (fun r => r.ID = id) = some task := by
  unfold SqliteRepo.GetTask
  split
  · rename_i t h
    rw [h]
    simp
  · rename_i h
    rw [h]
    simp

theorem GetTask_ok_id {repo : SqliteRepo} {id : Int} {task : Task}
    (h : repo.GetTask id = .ok task) : task.ID = id ∧ task ∈ repo.rows := by
  rw [GetTask_ok_iff] at h
  have h1 := List.find?_some h
  have h2 := List.mem_of_find?_eq_some h
  exact ⟨by simpa using h1, h2⟩

theorem updateRow_ID (task r : Task) : (updateRow task r).ID = r.ID := by
  unfold updateRow
  split <;> rfl

theorem UpdateTask_present (repo : SqliteRepo) (task : Task)
    (h : ∃ r ∈ repo.rows, r.ID = task.ID) :
    repo.UpdateTask task = (.ok (), { repo with rows := repo.rows.map (updateRow task) }) := by
  have hany : repo.rows.any (fun r => r.ID = task.ID) = true := by
    rw [List.any_eq_true]
    obtain ⟨r, hr, e⟩ := h
    exact ⟨r, hr, by simpa using e⟩
  simp only [SqliteRepo.UpdateTask, hany, Bool.not_true, Bool.false_eq_true, if_false]

theorem GetTask_after_update (repo : SqliteRepo) (task : Task) (id : Int) :
    ({ repo with rows := repo.rows.map (updateRow task) } : SqliteRepo).GetTask id =
      (repo.GetTask id).map (updateRow task) := by
  unfold SqliteRepo.GetTask
  simp only []
  rw [find_map_of_same_key (f := updateRow task) (fun r => by simp [updateRow_ID])]
  cases repo.rows.find? (fun r => r.ID = id) <;> rfl

theorem GetTask_after_remove_other (repo : SqliteRepo) {id other : Int} (h : other ≠ id) :
    ({ repo with rows := repo.rows.filter (fun r => r.ID ≠ id) } : SqliteRepo).GetTask other =
      repo.GetTask other := by
  unfold SqliteRepo.GetTask
  simp only []
  rw [List.find?_filter]
  have e : (fun a : Task => decide (decide (a.ID ≠ id) = true ∧ decide (a.ID = other) = true)) =
      (fun r : Task => decide (r.ID = other)) := by
    funext r
    by_cases hr : r.ID = other
    · simp [hr, h]
    · simp [hr]
  rw [e]

theorem GetTask_after_remove (repo : SqliteRepo) (id : Int) :
    ({ repo with rows := repo.rows.filter (fun r => r.ID ≠ id) } : SqliteRepo).GetTask id =
      .error .errNoRows := by
  unfold SqliteRepo.GetTask
  simp only []
  have : (repo.rows.filter (fun r => r.ID ≠ id)).find? (fun r => r.ID = id) = none := by
    rw [List.find?_eq_none]
    intro r hr
    rw [List.mem_filter] at hr
    simpa using hr.2
  rw [this]

theorem GetTask_absent {repo : SqliteRepo} {id : Int} (h : ∀ r ∈ repo.rows, r.ID ≠ id) :
    repo.GetTask id = .error .errNoRows := by
  unfold SqliteRepo.GetTask
  have : repo.rows.find? (fun r => r.ID = id) = none := by
    rw [List.find?_eq_none]
    intro r hr
    simpa using h r hr
  rw [this]

end sqliterepo
open entity sqliterepo

/-! ## The task lifecycle -/

/-- C7: for a stored task with a rule that NextDate accepts and a date that
parses, MarkTaskDone at the time `now` succeeds, the task is then found under
the same id with its date replaced by NextDate(now, date, repeat) and its id,
title, comment and rule as before, and every other task of the store is as it
was. -/
theorem markTaskDone_recurring (u : Usecase) (now : Time) (id : Int) (task : Task)
    (t0 : Time) (hget : u.GetTask id = .ok task) (hrule : ruleAccepted task.Repeat)
    (hdate : Parse task.Date = .ok t0) :
    ∃ next : String, NextDate now task.Date task.Repeat = .ok next ∧
      (u.MarkTaskDone now id).1 = .ok () ∧
      (u.MarkTaskDone now id).2.GetTask id =
        .ok { ID := task.ID, Date := next, Title := task.Title, Comment := task.Comment,
              Repeat := task.Repeat } ∧
      (∀ other : Int, other ≠ id →
        (u.MarkTaskDone now id).2.GetTask other = u.GetTask other) ∧
      (u.MarkTaskDone now id).2.db.rows.filter (fun r => r.ID ≠ id) =
        u.db.rows.filter (fun r => r.ID ≠ id) ∧
      (u.MarkTaskDone now id).2.db.rows.map (fun r => r.ID) = u.db.rows.map (fun r => r.ID) := by
  obtain ⟨d, hnext, _⟩ := NextDate_accepted now hdate hrule
  generalize (utcMidnight d).Format = next at hnext
  have hne : task.Repeat ≠ "" := ruleAccepted_ne_empty hrule
  have hget2 : u.db.GetTask id = .ok task := hget
  obtain ⟨hid, hmem⟩ := GetTask_ok_id hget2
  generalize hT : ({ task with Date := next } : Task) = moved
  have hTid : moved.ID = task.ID := by rw [← hT]
  have hup := UpdateTask_present u.db moved ⟨task, hmem, hTid.symm⟩
  have hmark : u.MarkTaskDone now id =
      (.ok (), { db := { u.db with rows := List.map (updateRow moved) u.db.rows } }) := by
    simp only [Usecase.MarkTaskDone, hget, if_neg hne, hnext, hT, hup]
  refine ⟨next, hnext, ?_, ?_, ?_, ?_, ?_⟩
  · rw [hmark]
  · rw [hmark]
    simp only [Usecase.GetTask]
    rw [GetTask_after_update, hget2, ← hT]
    simp [Except.map, updateRow]
  · intro other ho
    rw [hmark]
    simp only [Usecase.GetTask]
    rw [GetTask_after_update]
    cases hother : u.db.GetTask other with
    | error e => rfl
    | ok r =>
      have := (GetTask_ok_id hother).1
      have hr : ¬r.ID = moved.ID := by rw [this, hTid, hid]; exact ho
      simp [Except.map, updateRow, hr]
  · rw [hmark]
    show List.filter (fun r => decide (r.ID ≠ id)) (List.map (updateRow moved) u.db.rows) =
      List.filter (fun r => decide (r.ID ≠ id)) u.db.rows
    generalize u.db.rows = l
    induction l with
    | nil => rfl
    | cons a l ih =>
      rw [List.map_cons, List.filter_cons, List.filter_cons, updateRow_ID, ih]
      by_cases ha : a.ID = id
      · simp only [ha, ne_eq, not_true_eq_false, decide_False, Bool.false_eq_true, if_false]
      · have ha2 : ¬a.ID = moved.ID := by rw [hTid, hid]; exact ha
        simp only [ha, ne_eq, not_false_eq_true, decide_True, if_true, updateRow, if_neg ha2]
  · rw [hmark]
    simp only [List.map_map]
    congr 1
    funext r
    simp [updateRow_ID]

/-- A use of C7: the task of 1 January 2024 with the rule `d 7`, marked done
on 10 January 2024, moves to 15 January 2024. -/
theorem markTaskDone_recurring_witness :
    (Usecase.mk ⟨[⟨1, "20240101", "t", "c", "d 7"⟩], 1⟩).GetTask 1 =
      .ok ⟨1, "20240101", "t", "c", "d 7"⟩ ∧
    ruleAccepted "d 7" ∧ Parse "20240101" = .ok (Date 2024 1 1 0 0) ∧
    ∃ next : String,
      NextDate (Date 2024 1 10 0 0) "20240101" "d 7" = .ok next ∧ next = "20240115" ∧
      ((Usecase.mk ⟨[⟨1, "20240101", "t", "c", "d 7"⟩], 1⟩).MarkTaskDone
        (Date 2024 1 10 0 0) 1).2.GetTask 1 = .ok ⟨1, next, "t", "c", "d 7"⟩ := by
  obtain ⟨next, h1, _, h3, _⟩ := markTaskDone_recurring
    (Usecase.mk ⟨[⟨1, "20240101", "t", "c", "d 7"⟩], 1⟩) (Date 2024 1 10 0 0) 1
    ⟨1, "20240101", "t", "c", "d 7"⟩ (Date 2024 1 1 0 0) (by decide) (by decide) (by decide)
  have e : NextDate (Date 2024 1 10 0 0) "20240101" "d 7" = .ok "20240115" := by decide
  have hn : next = "20240115" := by
    have h := h1
    simp only [] at h
    rw [e] at h
    exact (Except.ok.inj h).symm
  exact ⟨by decide, by decide, by decide, next, h1, hn, h3⟩

/-- C8: for a stored task whose rule is empty, MarkTaskDone removes the task
and leaves every other task as it was, and GetTask for its id then fails with
the error that no row was found; for an id that is not in the store,
MarkTaskDone fails and the store is as it was. -/
theorem markTaskDone_one_off (u : Usecase) (now : Time) (id : Int) :
    (∀ task : Task, u.GetTask id = .ok task → task.Repeat = "" →
      (u.MarkTaskDone now id).1 = .ok () ∧
      (u.MarkTaskDone now id).2.db.rows = u.db.rows.filter (fun r => r.ID ≠ id) ∧
      (u.MarkTaskDone now id).2.GetTask id = .error .errNoRows ∧
      (∀ other : Int, other ≠ id →
        (u.MarkTaskDone now id).2.GetTask other = u.GetTask other)) ∧
    ((∀ r ∈ u.db.rows, r.ID ≠ id) → u.MarkTaskDone now id = (.error .errNoRows, u)) := by
  constructor
  · intro task hget hrep
    have hmark : u.MarkTaskDone now id =
        (.ok (), { db := { u.db with rows := u.db.rows.filter (fun r => r.ID ≠ id) } }) := by
      simp only [Usecase.MarkTaskDone, hget, hrep, if_true, SqliteRepo.RemoveTask]
    rw [hmark]
    refine ⟨rfl, rfl, ?_, ?_⟩
    · exact GetTask_after_remove u.db id
    · intro other ho
      exact GetTask_after_remove_other u.db ho
  · intro habs
    have hget : u.GetTask id = .error .errNoRows := GetTask_absent habs
    simp only [Usecase.MarkTaskDone, hget]

/-- A use of C8: a store with the one-off task 1 and the task 2. -/
theorem markTaskDone_one_off_witness :
    ((Usecase.mk ⟨[⟨1, "20240101", "a", "", ""⟩, ⟨2, "20240102", "b", "", "y"⟩], 2⟩).MarkTaskDone
        (Date 2024 1 10 0 0) 1).2.db.rows = [⟨2, "20240102", "b", "", "y"⟩] ∧
    ((Usecase.mk ⟨[⟨1, "20240101", "a", "", ""⟩, ⟨2, "20240102", "b", "", "y"⟩], 2⟩).MarkTaskDone
        (Date 2024 1 10 0 0) 1).2.GetTask 1 = .error .errNoRows ∧
    (Usecase.mk ⟨[⟨2, "20240102", "b", "", "y"⟩], 2⟩).MarkTaskDone (Date 2024 1 10 0 0) 1 =
      (.error .errNoRows, Usecase.mk ⟨[⟨2, "20240102", "b", "", "y"⟩], 2⟩) :=
  ⟨((markTaskDone_one_off
      (Usecase.mk ⟨[⟨1, "20240101", "a", "", ""⟩, ⟨2, "20240102", "b", "", "y"⟩], 2⟩)
      (Date 2024 1 10 0 0) 1).1 ⟨1, "20240101", "a", "", ""⟩ (by decide) (by decide)).2.1,
   ((markTaskDone_one_off
      (Usecase.mk ⟨[⟨1, "20240101", "a", "", ""⟩, ⟨2, "20240102", "b", "", "y"⟩], 2⟩)
      (Date 2024 1 10 0 0) 1).1 ⟨1, "20240101", "a", "", ""⟩ (by decide) (by decide)).2.2.1,
   (markTaskDone_one_off (Usecase.mk ⟨[⟨2, "20240102", "b", "", "y"⟩], 2⟩)
      (Date 2024 1 10 0 0) 1).2 (by decide)⟩

/-- C9: CreateTask and UpdateTask with an empty title fail with the error for
a missing title, whatever the other fields and the store are; and whenever
CreateTask or UpdateTask returns an error (for an empty title, a rule that is
not accepted, a date that does not parse, or an id without a row) the store
is exactly as it was before the call. -/
theorem validation_failure_leaves_store (u : Usecase) (now : Time) (task : Task) :
    (task.Title = "" →
      u.CreateTask now task = (.error .missingTitle, u) ∧
      u.UpdateTask now task = (.error .missingTitle, u)) ∧
    (∀ e : Err, (u.CreateTask now task).1 = .error e → (u.CreateTask now task).2 = u) ∧
    (∀ e : Err, (u.UpdateTask now task).1 = .error e → (u.UpdateTask now task).2 = u) := by
  refine ⟨?_, ?_, ?_⟩
  · intro h
    simp only [Usecase.CreateTask, Usecase.UpdateTask, h, if_true, and_self]
  · intro e
    unfold Usecase.CreateTask
    split
    · intro _; rfl
    · split
      · intro _; rfl
      · split
        · intro _; rfl
        · intro h
          exact absurd h (by simp [SqliteRepo.CreateTask])
  · intro e
    unfold Usecase.UpdateTask
    split
    · intro _; rfl
    · split
      · intro _; rfl
      · split
        · intro _; rfl
        · by_cases hany : u.db.rows.any (fun r => r.ID = task.ID) = true
          · simp [SqliteRepo.UpdateTask, hany]
          · simp only [Bool.not_eq_true] at hany
            simp [SqliteRepo.UpdateTask, hany]

/-- A use of C9: an empty title, a rule that is not accepted and a date that
does not parse, on a store with one task. -/
theorem validation_failure_leaves_store_witness :
    (Usecase.mk ⟨[⟨1, "20240101", "a", "", ""⟩], 1⟩).CreateTask (Date 2024 1 10 0 0)
        ⟨0, "20240105", "", "c", "d 7"⟩ =
      (.error .missingTitle, Usecase.mk ⟨[⟨1, "20240101", "a", "", ""⟩], 1⟩) ∧
    ((Usecase.mk ⟨[⟨1, "20240101", "a", "", ""⟩], 1⟩).CreateTask (Date 2024 1 10 0 0)
        ⟨0, "20240105", "t", "c", "d 500"⟩).2 = Usecase.mk ⟨[⟨1, "20240101", "a", "", ""⟩], 1⟩ ∧
    ((Usecase.mk ⟨[⟨1, "20240101", "a", "", ""⟩], 1⟩).UpdateTask (Date 2024 1 10 0 0)
        ⟨1, "2024-01-05", "t", "c", "d 7"⟩).2 = Usecase.mk ⟨[⟨1, "20240101", "a", "", ""⟩], 1⟩ :=
  ⟨((validation_failure_leaves_store (Usecase.mk ⟨[⟨1, "20240101", "a", "", ""⟩], 1⟩)
      (Date 2024 1 10 0 0) ⟨0, "20240105", "", "c", "d 7"⟩).1 (by decide)).1,
   (validation_failure_leaves_store (Usecase.mk ⟨[⟨1, "20240101", "a", "", ""⟩], 1⟩)
      (Date 2024 1 10 0 0) ⟨0, "20240105", "t", "c", "d 500"⟩).2.1
        (.incorrectRepeat "d 500") (by decide),
   (validation_failure_leaves_store (Usecase.mk ⟨[⟨1, "20240101", "a", "", ""⟩], 1⟩)
      (Date 2024 1 10 0 0) ⟨1, "2024-01-05", "t", "c", "d 7"⟩).2.2
        (.parseError "2024-01-05") (by decide)⟩

/-! ## Further properties of the lifecycle -/

namespace usecase

/-- The loops of NextDate stop for every input: the value that marks an
exhausted budget is never returned. -/
theorem NextDate_terminates (now : Time) (date rep : String) :
    NextDate now date rep ≠ .error .loopBudget := by
  by_cases hne : rep = ""
  · simp [NextDate, hne]
  · cases hp : Parse date with
    | error e => rw [NextDate_parse_error now hne hp]; simp
    | ok t0 =>
      by_cases hr : ruleAccepted rep
      · obtain ⟨d, hd, _⟩ := NextDate_accepted now hp hr
        rw [hd]; simp
      · rw [NextDate_rejected now hne hp hr]; simp

/-- The check of the rule at the start of CreateTask and UpdateTask lets
through the empty rule and the accepted rules only. -/
theorem probe_ok {now : Time} {rep s : String} (h : NextDate now now.Format rep = .ok s) :
    rep = "" ∨ ruleAccepted rep := by
  by_cases hne : rep = ""
  · exact Or.inl hne
  · right
    cases hp : Parse now.Format with
    | error e =>
      rw [NextDate_parse_error now hne hp] at h
      exact absurd h (by simp)
    | ok t0 =>
      by_contra hr
      rw [NextDate_rejected now hne hp hr] at h
      exact absurd h (by simp)

theorem Format_now (now : Time) : now.Format = (utcMidnight (now.abs / nsPerDay)).Format := by
  rw [Format_eq, Format_eq, utcMidnight_Date]
  rfl

/-- The date handling of CreateTask when the clock of the server is in a zone
at or east of UTC: an empty date becomes today, a date before today becomes
today without a rule and the next date with a rule, and a date of today or
later stays. -/
theorem normalizeDate_east_of_utc (now : Time) (task : Task)
    (hzone : 0 ≤ now.offset ∧ now.offset < 86400)
    (hrule : task.Repeat = "" ∨ ruleAccepted task.Repeat) :
    (task.Date = "" → normalizeDate now task = .ok { task with Date := now.Format }) ∧
    (∀ t : Time, task.Date ≠ "" → Parse task.Date = .ok t →
      t.ns / nsPerDay < now.abs / nsPerDay → task.Repeat = "" →
      normalizeDate now task = .ok { task with Date := now.Format }) ∧
    (∀ t : Time, task.Date ≠ "" → Parse task.Date = .ok t →
      t.ns / nsPerDay < now.abs / nsPerDay → task.Repeat ≠ "" →
      ∃ next, NextDate now task.Date task.Repeat = .ok next ∧
        normalizeDate now task = .ok { task with Date := next }) ∧
    (∀ t : Time, task.Date ≠ "" → Parse task.Date = .ok t →
      now.abs / nsPerDay ≤ t.ns / nsPerDay → normalizeDate now task = .ok task) := by
  have hpast : ∀ t : Time, Parse task.Date = .ok t → t.ns / nsPerDay < now.abs / nsPerDay →
      (t.Before now && t.Format != now.Format) = true := by
    intro t hp hlt
    obtain ⟨y, m, dd, _, _, rfl⟩ := Parse_spec hp
    generalize dateDays y m dd = d at *
    have hne : (utcMidnight d).Format ≠ now.Format := by
      rw [Format_now now]
      intro h
      have := Format_utcMidnight_inj h
      simp only [utcMidnight, nsPerDay] at hlt this
      omega
    have hb : (utcMidnight d).Before now = true := by
      simp only [Time.Before, utcMidnight, Time.abs, nsPerDay, nsPerSecond,
        decide_eq_true_eq] at hlt ⊢
      omega
    simp [hb, hne]
  have hfuture : ∀ t : Time, Parse task.Date = .ok t → now.abs / nsPerDay ≤ t.ns / nsPerDay →
      (t.Before now && t.Format != now.Format) = false := by
    intro t hp hle
    obtain ⟨y, m, dd, _, _, rfl⟩ := Parse_spec hp
    generalize dateDays y m dd = d at *
    by_cases heq : d = now.abs / nsPerDay
    · have : (utcMidnight d).Format = now.Format := by rw [Format_now now, heq]
      simp [this]
    · have hb : (utcMidnight d).Before now = false := by
        simp only [Time.Before, utcMidnight, Time.abs, nsPerDay, nsPerSecond,
          decide_eq_false_iff_not] at hle heq ⊢
        omega
      simp [hb]
  refine ⟨?_, ?_, ?_, ?_⟩
  · intro h
    simp only [normalizeDate, h, if_true]
  · intro t hd hp hlt hrep
    simp only [normalizeDate, if_neg hd, hp, hpast t hp hlt, if_true, hrep]
  · intro t hd hp hlt hrep
    have hacc : ruleAccepted task.Repeat := hrule.resolve_left hrep
    obtain ⟨d, hnext, _⟩ := NextDate_accepted now hp hacc
    refine ⟨_, hnext, ?_⟩
    simp only [normalizeDate, if_neg hd, hp, hpast t hp hlt, if_true, if_neg hrep, hnext]
  · intro t hd hp hle
    simp only [normalizeDate, if_neg hd, hp, hfuture t hp hle, Bool.false_eq_true, if_false]

/-- CreateTask inserts what the date handling gives, once the title is not
empty and the check of the rule passes. -/
theorem CreateTask_inserts (u : Usecase) (now : Time) (task stored : Task) (s : String)
    (htitle : task.Title ≠ "") (hprobe : NextDate now now.Format task.Repeat = .ok s)
    (hdate : normalizeDate now task = .ok stored) :
    u.CreateTask now task = u.store stored := by
  simp only [Usecase.CreateTask, if_neg htitle, hprobe, hdate, Usecase.store]

/-- The insert gives the task the next id and changes nothing else. -/
theorem store_eq (u : Usecase) (task : Task) :
    u.store task = (.ok (u.db.seq + 1),
      { db := { rows := u.db.rows ++ [{ task with ID := u.db.seq + 1 }],
                seq := u.db.seq + 1 } }) := rfl

/-- Title and rule of the stored tasks: after any sequence of calls on the
empty store, every task has a title that is not empty and a rule that is
empty or accepted. -/
theorem store_titles_and_rules (ops : List Op) :
    ∀ t ∈ ((Usecase.mk SqliteRepo.empty).run ops).db.rows,
      t.Title ≠ "" ∧ (t.Repeat = "" ∨ ruleAccepted t.Repeat) := by
  have hstep : ∀ (u : Usecase) (op : Op),
      (∀ t ∈ u.db.rows, t.Title ≠ "" ∧ (t.Repeat = "" ∨ ruleAccepted t.Repeat)) →
      ∀ t ∈ (u.step op).db.rows, t.Title ≠ "" ∧ (t.Repeat = "" ∨ ruleAccepted t.Repeat) := by
    intro u op hu
    have hupd : ∀ task : Task, task.Title ≠ "" → (task.Repeat = "" ∨ ruleAccepted task.Repeat) →
        ∀ t ∈ (u.db.UpdateTask task).2.rows,
          t.Title ≠ "" ∧ (t.Repeat = "" ∨ ruleAccepted t.Repeat) := by
      intro task h1 h2 t ht
      unfold SqliteRepo.UpdateTask at ht
      simp only [] at ht
      split at ht
      · exact hu t ht
      · simp only [List.mem_map] at ht
        obtain ⟨r, hr, rfl⟩ := ht
        unfold updateRow
        split
        · exact ⟨h1, h2⟩
        · exact hu r hr
    have hrem : ∀ id : Int, ∀ t ∈ (u.db.RemoveTask id).2.rows,
        t.Title ≠ "" ∧ (t.Repeat = "" ∨ ruleAccepted t.Repeat) := by
      intro id t ht
      simp only [SqliteRepo.RemoveTask, List.mem_filter] at ht
      exact hu t ht.1
    cases op with
    | create now task =>
      simp only [Usecase.step, Usecase.CreateTask]
      split
      · exact hu
      · rename_i htitle
        split
        · exact hu
        · rename_i s hprobe
          split
          · exact hu
          · rename_i stored hdate
            intro t ht
            simp only [SqliteRepo.CreateTask, List.mem_append, List.mem_singleton] at ht
            rcases ht with ht | rfl
            · exact hu t ht
            · have hs : stored.Title = task.Title ∧ stored.Repeat = task.Repeat := by
                unfold normalizeDate at hdate
                split at hdate
                · cases hdate; exact ⟨rfl, rfl⟩
                · split at hdate
                  · exact absurd hdate (by simp)
                  · split at hdate
                    · split at hdate
                      · cases hdate; exact ⟨rfl, rfl⟩
                      · split at hdate
                        · exact absurd hdate (by simp)
                        · cases hdate; exact ⟨rfl, rfl⟩
                    · cases hdate; exact ⟨rfl, rfl⟩
              simp only [hs.1, hs.2]
              exact ⟨htitle, probe_ok hprobe⟩
    | update now task =>
      simp only [Usecase.step, Usecase.UpdateTask]
      split
      · exact hu
      · rename_i htitle
        split
        · exact hu
        · rename_i s hprobe
          split
          · exact hu
          · split <;> exact hupd task htitle (probe_ok hprobe)
    | done now id =>
      simp only [Usecase.step, Usecase.MarkTaskDone]
      split
      · exact hu
      · rename_i task hget
        have hget2 : u.db.GetTask id = .ok task := hget
        have hmem := (GetTask_ok_id hget2).2
        split
        · split <;> exact hrem id
        · split
          · exact hu
          · split <;> exact hupd _ (hu task hmem).1 (hu task hmem).2
    | delete id =>
      simp only [Usecase.step, Usecase.DeleteTask]
      exact hrem id
  induction ops using List.reverseRecOn with
  | nil => intro t ht; simp [Usecase.run, SqliteRepo.empty] at ht
  | append_singleton l op ih =>
    have e : (Usecase.mk SqliteRepo.empty).run (l ++ [op]) =
        ((Usecase.mk SqliteRepo.empty).run l).step op := by
      simp [Usecase.run, List.foldl_append]
    rw [e]
    exact hstep _ op ih

/-- The check of the rule at the start of CreateTask and UpdateTask passes
for the empty rule, and for an accepted rule when today's date parses. -/
theorem probe_passes (now : Time) {rep : String} {today : Time}
    (htoday : Parse now.Format = .ok today) (hrule : rep = "" ∨ ruleAccepted rep) :
    ∃ s, NextDate now now.Format rep = .ok s := by
  rcases hrule with rfl | h
  · exact ⟨"", by simp [NextDate]⟩
  · obtain ⟨d, hd, _⟩ := NextDate_accepted now htoday h
    exact ⟨_, hd⟩

/-- CreateTask when the clock of the server is in a zone at or east of UTC,
for a task with a title, a rule that is empty or accepted, and a day `today`
that parses: the call succeeds with the next id, and the task is stored with
its title, comment and rule and with the date that the four cases give:
today for an empty date, today for a date before today without a rule, the
next date for a date before today with a rule, and the date itself when it
is today or later. -/
theorem CreateTask_east_of_utc (u : Usecase) (now : Time) (task : Task) (today : Time)
    (hzone : 0 ≤ now.offset ∧ now.offset < 86400)
    (htitle : task.Title ≠ "") (hrule : task.Repeat = "" ∨ ruleAccepted task.Repeat)
    (htoday : Parse now.Format = .ok today) :
    (task.Date = "" → u.CreateTask now task = u.store { task with Date := now.Format }) ∧
    (∀ t : Time, task.Date ≠ "" → Parse task.Date = .ok t →
      t.ns / nsPerDay < now.abs / nsPerDay → task.Repeat = "" →
      u.CreateTask now task = u.store { task with Date := now.Format }) ∧
    (∀ t : Time, task.Date ≠ "" → Parse task.Date = .ok t →
      t.ns / nsPerDay < now.abs / nsPerDay → task.Repeat ≠ "" →
      ∃ next, NextDate now task.Date task.Repeat = .ok next ∧
        u.CreateTask now task = u.store { task with Date := next }) ∧
    (∀ t : Time, task.Date ≠ "" → Parse task.Date = .ok t →
      now.abs / nsPerDay ≤ t.ns / nsPerDay → u.CreateTask now task = u.store task) := by
  obtain ⟨s, hprobe⟩ := probe_passes now htoday hrule
  obtain ⟨h1, h2, h3, h4⟩ := normalizeDate_east_of_utc now task hzone hrule
  refine ⟨?_, ?_, ?_, ?_⟩
  · intro hd
    exact CreateTask_inserts u now task _ s htitle hprobe (h1 hd)
  · intro t hd hp hlt hrep
    exact CreateTask_inserts u now task _ s htitle hprobe (h2 t hd hp hlt hrep)
  · intro t hd hp hlt hrep
    obtain ⟨next, hn, hnorm⟩ := h3 t hd hp hlt hrep
    exact ⟨next, hn, CreateTask_inserts u now task _ s htitle hprobe hnorm⟩
  · intro t hd hp hle
    exact CreateTask_inserts u now task _ s htitle hprobe (h4 t hd hp hle)

end usecase

/-- C6, where the code departs from it: the clock of the server reads
23:00 on 10 January 2024 in a zone five hours west of UTC, so today is
10 January 2024, and a task is created for 11 January 2024 with no rule. The
date is not before today, yet the task is stored under today: `time.Parse`
reads the date as midnight UTC, which is 19:00 of 10 January on the clock of
the server, and `Before` compares that instant with `now`. -/
theorem createTask_west_of_utc_moves_tomorrow :
    (Date 2024 1 10 82800000000000 (-18000)).Format = "20240110" ∧
    Parse "20240111" = .ok (Date 2024 1 11 0 0) ∧
    (Usecase.mk SqliteRepo.empty).CreateTask (Date 2024 1 10 82800000000000 (-18000))
        ⟨0, "20240111", "t", "", ""⟩ =
      (.ok 1, Usecase.mk ⟨[⟨1, "20240110", "t", "", ""⟩], 1⟩) := by
  decide

/-- C10, where the code departs from it: on 10 January 2024 a task is created
for 31 December 9999 with the rule `d 1` and then marked done. NextDate moves
it to 1 January 10000, which `Format` writes with five digits of year, so the
stored date has nine characters and does not parse any more. -/
theorem markTaskDone_leaves_the_date_format :
    ((Usecase.mk SqliteRepo.empty).run
      [.create (Date 2024 1 10 0 0) ⟨0, "99991231", "t", "", "d 1"⟩,
       .done (Date 2024 1 10 0 0) 1]).db.rows = [⟨1, "100000101", "t", "", "d 1"⟩] ∧
    Parse "100000101" = .error (.parseError "100000101") ∧
    ¬storeInvariant ((Usecase.mk SqliteRepo.empty).run
      [.create (Date 2024 1 10 0 0) ⟨0, "99991231", "t", "", "d 1"⟩,
       .done (Date 2024 1 10 0 0) 1]) := by
  have h1 : ((Usecase.mk SqliteRepo.empty).run
      [.create (Date 2024 1 10 0 0) ⟨0, "99991231", "t", "", "d 1"⟩,
       .done (Date 2024 1 10 0 0) 1]).db.rows = [⟨1, "100000101", "t", "", "d 1"⟩] := by
    decide
  have h2 : Parse "100000101" = .error (.parseError "100000101") := by decide
  refine ⟨h1, h2, ?_⟩
  intro hinv
  obtain ⟨_, ⟨d, hd⟩, _⟩ := hinv ⟨1, "100000101", "t", "", "d 1"⟩ (by rw [h1]; simp)
  simp only [] at hd
  rw [h2] at hd
  exact absurd hd (by simp)
